import Mathlib

/-!
Verification of the ext-sort external sorting library.

This file gives a shallow embedding of the core of the library
(src/buffer.rs, src/chunk.rs, src/merger.rs, src/sort.rs) and proves
properties of the embedded definitions.

Modelling conventions:
* Rust iterators of fallible values become Lean lists of Except values;
  advancing an iterator is dropping the head of the list.
* The std BinaryHeap of the merger holds pairs
  (Reverse (OrderedWrapper item), Reverse index); popping the maximum of
  that heap returns the entry whose pair (item, index) is least in the
  lexicographic order where items are compared by the user comparator and
  ties on the item are broken by the least run index.  The heap is
  modelled as the list of its entries, and popping as removing a least
  entry under that key order (popMin below).
* File contents become lists of an abstract byte type; the MessagePack
  encoder and decoder of the rmp_serde crate (an external dependency)
  are abstract parameters enc and dec, constrained in theorems by the
  self-delimiting framing laws that crate provides.
* usize arithmetic never overflows in the relevant paths, so indices and
  lengths are Nat; usize::MAX is the 64-bit constant.
-/

/-! ## Comparators (merger.rs: OrderedWrapper plus the Ord contract) -/

/-- Boolean less-or-equal induced by a three way comparator: the Rust
comparison cmp(a, b) is not Greater. -/
def cmpLe (cmp : α → α → Ordering) (a b : α) : Bool :=
  match cmp a b with
  | Ordering.gt => false
  | _ => true

/-- Laws of a lawful Rust comparator (the contract of Ord / total order
required by the library): compare is antisymmetric under swap and the
induced less-or-equal relation is transitive. -/
structure LawfulCmp (cmp : α → α → Ordering) : Prop where
  swap : ∀ a b, (cmp a b).swap = cmp b a
  le_trans : ∀ a b c, cmpLe cmp a b → cmpLe cmp b c → cmpLe cmp a c

/-! ## Buffer (buffer.rs) -/

/-- Value of usize::MAX on a 64-bit platform. -/
def USIZE_MAX : Nat := 2 ^ 64 - 1

/-- Buffer limited by element count (buffer.rs: LimitedBuffer).  The
inner vector is the list of pushed items in push order. -/
structure LimitedBuffer (α : Type) where
  limit : Nat
  inner : List α

/-- Push appends the item to the inner vector (buffer.rs: LimitedBuffer::push). -/
def LimitedBuffer.push (b : LimitedBuffer α) (item : α) : LimitedBuffer α :=
  { b with inner := b.inner ++ [item] }

/-- Length of the buffer (buffer.rs: LimitedBuffer::len). -/
def LimitedBuffer.len (b : LimitedBuffer α) : Nat := b.inner.length

/-- Fullness check: the inner length reached the limit
(buffer.rs: LimitedBuffer::is_full, self.inner.len() >= self.limit). -/
def LimitedBuffer.is_full (b : LimitedBuffer α) : Bool :=
  decide (b.limit ≤ b.inner.length)

/-- Builder for LimitedBuffer (buffer.rs: LimitedBufferBuilder). -/
structure LimitedBufferBuilder where
  buffer_limit : Nat
  preallocate : Bool

/-- Default builder: limit usize::MAX, no preallocation
(buffer.rs: impl Default for LimitedBufferBuilder). -/
def LimitedBufferBuilder.default : LimitedBufferBuilder :=
  { buffer_limit := USIZE_MAX, preallocate := false }

/-- Building a buffer yields an empty buffer with the configured limit
(buffer.rs: LimitedBufferBuilder::build).  Vec::new and
Vec::with_capacity differ only in preallocated storage, not in contents,
so both branches produce the same observable buffer. -/
def LimitedBufferBuilder.build (bb : LimitedBufferBuilder) : LimitedBuffer α :=
  { limit := bb.buffer_limit, inner := [] }

/-- Fullness predicate of a LimitedBuffer as a function of the pushed
contents: the buffer built by the builder, after pushing exactly the
items of l, reports is_full. -/
def limitedIsFull (bb : LimitedBufferBuilder) (l : List α) : Bool :=
  (LimitedBuffer.mk bb.buffer_limit l).is_full

/-! ## Merger (merger.rs: BinaryHeapMerger) -/

/-- State of the binary heap merger (merger.rs: BinaryHeapMerger).
The field items is the multiset of heap entries (item, chunk index);
chunks holds the not yet consumed suffix of every chunk iterator. -/
structure BinaryHeapMerger (α ε : Type) where
  items : List (α × Nat)
  chunks : List (List (Except ε α))
  initiated : Bool

/-- Fresh merger over the given chunks
(merger.rs: BinaryHeapMerger::new): empty heap, not initiated. -/
def BinaryHeapMerger.new (chunks : List (List (Except ε α))) : BinaryHeapMerger α ε :=
  { items := [], chunks := chunks, initiated := false }

/-- Order on heap entries realised by the std BinaryHeap of
(Reverse (OrderedWrapper item), Reverse index) pairs: entry e is popped
no later than entry f when the item of e compares Less, or the items
compare Equal and the index of e is not larger. -/
def keyLeB (cmp : α → α → Ordering) (e f : α × Nat) : Bool :=
  match cmp e.1 f.1 with
  | Ordering.lt => true
  | Ordering.eq => decide (e.2 ≤ f.2)
  | Ordering.gt => false

/-- Pop of the modelled heap: removes one entry that is least under
keyLeB (what BinaryHeap::pop returns on the reversed pairs) and returns
it together with the remaining entries; none on an empty heap. -/
def popMin (cmp : α → α → Ordering) : List (α × Nat) → Option ((α × Nat) × List (α × Nat))
  | [] => none
  | e :: rest =>
    match popMin cmp rest with
    | none => some (e, [])
    | some (m, rest1) => if keyLeB cmp e m then some (e, rest) else some (m, e :: rest1)

/-- Initial population loop of the first next() call
(merger.rs lines 111-122): chunks are polled in index order, the first
element of each is pushed; on an error the loop stops at once, leaving
later chunks untouched.  Returns the advanced chunk suffixes, the list
of pushed entries and the error if one was hit. -/
def initChunks (idx : Nat) :
    List (List (Except ε α)) → List (List (Except ε α)) × List (α × Nat) × Option ε
  | [] => ([], [], none)
  | [] :: cs =>
    let r := initChunks (idx + 1) cs
    ([] :: r.1, r.2.1, r.2.2)
  | (Except.ok a :: c) :: cs =>
    let r := initChunks (idx + 1) cs
    (c :: r.1, (a, idx) :: r.2.1, r.2.2)
  | (Except.error e :: c) :: cs => (c :: cs, [], some e)

/-- Pop phase of one next() call (merger.rs lines 125-135): a least
entry (a, i) is popped; a replacement element is pulled from chunk i; an
ok replacement is pushed back with index i; a replacement error is
returned instead of the popped item, which the source discards; if the
chunk is exhausted nothing is pushed and the popped item is returned. -/
def mergerPop (cmp : α → α → Ordering) (m1 : BinaryHeapMerger α ε) :
    Option (Except ε α) × BinaryHeapMerger α ε :=
  match popMin cmp m1.items with
  | none => (none, m1)
  | some ((a, i), rest) =>
    match m1.chunks.getD i [] with
    | [] => (some (Except.ok a), { m1 with items := rest })
    | Except.ok b :: c =>
      (some (Except.ok a),
        BinaryHeapMerger.mk (rest ++ [(b, i)]) (m1.chunks.set i c) m1.initiated)
    | Except.error e :: c =>
      (some (Except.error e), BinaryHeapMerger.mk rest (m1.chunks.set i c) m1.initiated)

/-- One call of Iterator::next of the merger (merger.rs lines 110-136).
If the merger is not initiated, the population loop runs first; an error
there is returned at once and, as in the source, the initiated flag
stays false.  Otherwise the pop phase runs. -/
def mergerNext (cmp : α → α → Ordering) (m : BinaryHeapMerger α ε) :
    Option (Except ε α) × BinaryHeapMerger α ε :=
  let r :=
    if m.initiated then (m, none)
    else
      let t := initChunks 0 m.chunks
      (BinaryHeapMerger.mk (m.items ++ t.2.1) t.1 t.2.2.isNone, t.2.2)
  match r with
  | (m1, some e) => (some (Except.error e), m1)
  | (m1, none) => mergerPop cmp m1

/-- Total number of elements in all chunk suffixes. -/
def chunksLen (cs : List (List (Except ε α))) : Nat := (cs.map List.length).sum

/-- Termination measure of the merger: heap entries plus unread chunk
elements.  Every call of next that yields an element strictly decreases
it. -/
def measureM (m : BinaryHeapMerger α ε) : Nat := m.items.length + chunksLen m.chunks

/-- Iterating the merger a bounded number of times, collecting every
yielded element, stopping when next returns none. -/
def mergerRun (cmp : α → α → Ordering) : Nat → BinaryHeapMerger α ε → List (Except ε α)
  | 0, _ => []
  | Nat.succ fuel, m =>
    match mergerNext cmp m with
    | (none, _) => []
    | (some r, m2) => r :: mergerRun cmp fuel m2

/-- Consuming the merger to exhaustion.  Since every yielded element
strictly decreases measureM, measureM many steps always reach the end. -/
def mergerCollect (cmp : α → α → Ordering) (m : BinaryHeapMerger α ε) : List (Except ε α) :=
  mergerRun cmp (measureM m) m

/-- Values of the output stream: the payloads of the ok elements. -/
def okValues (l : List (Except ε α)) : List α :=
  l.filterMap (fun r => match r with | Except.ok a => some a | Except.error _ => none)

/-! ## Sorter (sort.rs: ExternalSorter) -/

/-- Error taxonomy of the sorter (sort.rs: SortError).  The payloads of
the variants whose content is an io or codec error are not representable
here and are dropped; the input variant keeps the caller error. -/
inductive SortError (ε : Type) where
  | tempDir
  | threadPoolBuild
  | io
  | serialization
  | deserialization
  | inputError (e : ε)
deriving DecidableEq

/-- In place stable sort of a sealed buffer under the comparator
(sort.rs: create_chunk calls buffer.par_sort_by(compare); the rayon
par_sort_by is a stable sort, and the stable sort of a list is uniquely
determined, so it equals mergeSort under the induced boolean order). -/
def parSortBy (cmp : α → α → Ordering) (l : List α) : List α :=
  l.mergeSort (fun a b => cmpLe cmp a b)

/-- Run creation loop of sort_by (sort.rs lines 287-304): consume the
input left to right, push ok values into the current buffer, abort with
InputError on an input error, seal the buffer into a sorted run whenever
it reports full, and seal the non-empty remainder after exhaustion.
The buffer policy is the abstract predicate isFull on the pushed
contents; building and reading back a chunk file is content preserving
(the codec round trip proved below), so a sealed run is its sorted
contents. -/
def sortByRuns (cmp : α → α → Ordering) (isFull : List α → Bool) :
    List (Except ε α) → List α → Except (SortError ε) (List (List α))
  | [], buf => Except.ok (if buf.length > 0 then [parSortBy cmp buf] else [])
  | x :: input, buf =>
    match x with
    | Except.error e => Except.error (SortError.inputError e)
    | Except.ok a =>
      let buf2 := buf ++ [a]
      if isFull buf2 then
        (sortByRuns cmp isFull input []).map (fun runs => parSortBy cmp buf2 :: runs)
      else
        sortByRuns cmp isFull input buf2

/-- Entry point sort_by (sort.rs lines 275-309): build the runs, then
return a fresh merger over them; every run is read back from its chunk
file as a stream of ok elements (type δ is the deserialization error
type of the chunk codec). -/
def sortBy (δ : Type) (cmp : α → α → Ordering) (isFull : List α → Bool)
    (input : List (Except ε α)) : Except (SortError ε) (BinaryHeapMerger α δ) :=
  (sortByRuns cmp isFull input []).map
    (fun runs => BinaryHeapMerger.new (runs.map (fun r => r.map Except.ok)))

/-! ## External chunk and codec (chunk.rs) -/

/-- Reading side of an external chunk (chunk.rs: RmpExternalChunk).
The reader field holds the file bytes from the current read position on
(including any bytes past the recorded length), limit is the remaining
byte allowance of the io::Take wrapper. -/
structure RmpExternalChunk (α β : Type) where
  reader : List β
  limit : Nat

/-- Building an external chunk (chunk.rs: ExternalChunk::build with
RmpExternalChunk::dump): every item is encoded in iteration order into
the chunk file, the writer is flushed, the file is rewound, its length L
is recorded, and the chunk reads the file through a Take limited to L
bytes.  The encoder enc stands for rmp_serde::encode::write of one item. -/
def ExternalChunk.build (enc : α → List β) (items : List α) : RmpExternalChunk α β :=
  let file := (items.map enc).flatten
  { reader := file, limit := file.length }

/-- One call of Iterator::next of the chunk (chunk.rs lines 146-155):
when the Take limit is zero, the stream ends; otherwise one item is
decoded from the reader, which sees at most limit bytes.  The decoder
dec stands for rmp_serde::decode::from_read and returns the decoded
result together with the number of bytes it consumed; consumption never
exceeds the Take limit. -/
def chunkNext (dec : List β → Except δ α × Nat) (c : RmpExternalChunk α β) :
    Option (Except δ α × RmpExternalChunk α β) :=
  if c.limit = 0 then none
  else
    let r := dec (c.reader.take c.limit)
    let n := min r.2 c.limit
    some (r.1, { reader := c.reader.drop n, limit := c.limit - n })

/-- Iterating the chunk a bounded number of times, collecting every
yielded element, stopping when next returns none. -/
def chunkRun (dec : List β → Except δ α × Nat) :
    Nat → RmpExternalChunk α β → List (Except δ α)
  | 0, _ => []
  | Nat.succ fuel, c =>
    match chunkNext dec c with
    | none => []
    | some (r, c2) => r :: chunkRun dec fuel c2

/-- Reading a chunk to exhaustion.  The recorded limit bounds the number
of successful decodes because every item occupies at least one byte, so
limit many steps reach the end of a well formed chunk. -/
def chunkCollect (dec : List β → Except δ α × Nat) (c : RmpExternalChunk α β) :
    List (Except δ α) :=
  chunkRun dec c.limit c

/-! ## Derived notions used by the statements -/

/-- Equivalence class test under the comparator: x compares Equal to t. -/
def classP (cmp : α → α → Ordering) (t : α) (x : α) : Bool :=
  decide (cmp x t = Ordering.eq)

/-- Heap contents produced by the initial population loop on error free
chunks: one entry per non-empty run, carrying its head and its index. -/
def initHeap (idx : Nat) : List (List α) → List (α × Nat)
  | [] => []
  | [] :: rs => initHeap (idx + 1) rs
  | (a :: _) :: rs => (a, idx) :: initHeap (idx + 1) rs

/-- Chunk streams of a list of error free runs: every run is read back
from its chunk file as a stream of ok elements. -/
def okChunks (ε : Type) (rs : List (List α)) : List (List (Except ε α)) :=
  rs.map (List.map Except.ok)

/-- Invariant of an initiated merger over error free runs: every run
suffix is sorted, every heap entry points into the run list and is a
lower bound of the suffix of its run, and every non-empty run suffix is
represented by at least one heap entry. -/
def MergerInv (cmp : α → α → Ordering) (h : List (α × Nat)) (rs : List (List α)) : Prop :=
  (∀ r ∈ rs, r.Pairwise (fun a b => cmpLe cmp a b = true)) ∧
  (∀ e ∈ h, e.2 < rs.length ∧ ∀ b ∈ rs.getD e.2 [], cmpLe cmp e.1 b = true) ∧
  (∀ i, i < rs.length → rs.getD i [] ≠ [] → ∃ a, (a, i) ∈ h)

/-- Remainder of run i in an initiated merger state: its heap entries
(in heap list order) followed by its unread suffix.  With at most one
heap entry per run this is the not yet emitted part of the run. -/
def remRun (h : List (α × Nat)) (rs : List (List α)) (i : Nat) : List α :=
  (h.filter (fun e => e.2 == i)).map Prod.fst ++ rs.getD i []

/-- Concrete single byte codec used to witness the abstract codec laws:
every natural number item is one byte holding the item itself. -/
def enc1 (n : Nat) : List Nat := [n]

/-- Decoder of the single byte codec: reads one byte as the item, fails
on an empty stream without consuming. -/
def dec1 (bs : List Nat) : Except Unit Nat × Nat :=
  match bs with
  | [] => (Except.error (), 0)
  | b :: _ => (Except.ok b, 1)

/-- Decidable equality of fallible outcomes, used to evaluate concrete
merger outputs. -/
instance exceptDecEq {ε α : Type} [DecidableEq ε] [DecidableEq α] : DecidableEq (Except ε α)
  | Except.ok a, Except.ok b =>
    if h : a = b then Decidable.isTrue (congrArg Except.ok h)
    else Decidable.isFalse (fun hc => h (Except.ok.inj hc))
  | Except.ok _, Except.error _ => Decidable.isFalse (fun hc => Except.noConfusion hc)
  | Except.error _, Except.ok _ => Decidable.isFalse (fun hc => Except.noConfusion hc)
  | Except.error e, Except.error f =>
    if h : e = f then Decidable.isTrue (congrArg Except.error h)
    else Decidable.isFalse (fun hc => h (Except.error.inj hc))

/-- Comparator on small naturals used by concrete witnesses. -/
def cmpF (a b : Fin 16) : Ordering := compare a b

/-- Natural number comparator used by concrete counterexamples. -/
def cmpN (a b : Nat) : Ordering := compare a b

/-! ## Theorems: comparator laws -/

theorem cmpLe_true_iff (cmp : α → α → Ordering) (a b : α) :
    cmpLe cmp a b = true ↔ cmp a b ≠ Ordering.gt := by
  unfold cmpLe
  cases cmp a b <;> simp

theorem cmp_refl (cmp : α → α → Ordering) (hc : LawfulCmp cmp) (a : α) :
    cmp a a = Ordering.eq := by
  have h := hc.swap a a
  cases h2 : cmp a a
  · rw [h2] at h; exact absurd h (by decide)
  · rfl
  · rw [h2] at h; exact absurd h (by decide)

theorem cmp_gt_iff (cmp : α → α → Ordering) (hc : LawfulCmp cmp) (a b : α) :
    cmp a b = Ordering.gt ↔ cmp b a = Ordering.lt := by
  constructor
  · intro h2
    have h := hc.swap a b
    rw [h2] at h
    exact h.symm
  · intro h2
    have h := hc.swap b a
    rw [h2] at h
    exact h.symm

theorem cmp_eq_comm (cmp : α → α → Ordering) (hc : LawfulCmp cmp) (a b : α) :
    cmp a b = Ordering.eq ↔ cmp b a = Ordering.eq := by
  constructor
  · intro h2
    have h := hc.swap a b
    rw [h2] at h
    exact h.symm
  · intro h2
    have h := hc.swap b a
    rw [h2] at h
    exact h.symm

theorem cmpLe_total (cmp : α → α → Ordering) (hc : LawfulCmp cmp) (a b : α) :
    cmpLe cmp a b = true ∨ cmpLe cmp b a = true := by
  rw [cmpLe_true_iff, cmpLe_true_iff]
  by_cases h : cmp a b = Ordering.gt
  · right
    rw [cmp_gt_iff cmp hc] at h
    simp [h]
  · left; exact h

theorem cmpLe_total_bool (cmp : α → α → Ordering) (hc : LawfulCmp cmp) (a b : α) :
    (cmpLe cmp a b || cmpLe cmp b a) = true := by
  rcases cmpLe_total cmp hc a b with h | h <;> simp [h]

theorem cmpLe_of_eq (cmp : α → α → Ordering) (a b : α) (h : cmp a b = Ordering.eq) :
    cmpLe cmp a b = true := by
  rw [cmpLe_true_iff]; simp [h]

theorem cmpLe_refl (cmp : α → α → Ordering) (hc : LawfulCmp cmp) (a : α) :
    cmpLe cmp a a = true :=
  cmpLe_of_eq cmp a a (cmp_refl cmp hc a)

theorem cmp_eq_of_le_le (cmp : α → α → Ordering) (hc : LawfulCmp cmp) (a b : α)
    (h1 : cmpLe cmp a b = true) (h2 : cmpLe cmp b a = true) : cmp a b = Ordering.eq := by
  rw [cmpLe_true_iff] at h1 h2
  cases h : cmp a b
  · exfalso; exact h2 ((cmp_gt_iff cmp hc b a).mpr h)
  · rfl
  · exact absurd h h1

theorem cmp_lt_iff_not_le (cmp : α → α → Ordering) (hc : LawfulCmp cmp) (a b : α) :
    cmp a b = Ordering.lt ↔ ¬ cmpLe cmp b a = true := by
  rw [cmpLe_true_iff]
  simp only [ne_eq, not_not]
  exact (cmp_gt_iff cmp hc b a).symm

theorem cmp_lt_of_lt_le (cmp : α → α → Ordering) (hc : LawfulCmp cmp) (a b c : α)
    (h1 : cmp a b = Ordering.lt) (h2 : cmpLe cmp b c = true) : cmp a c = Ordering.lt := by
  rw [cmp_lt_iff_not_le cmp hc] at h1 ⊢
  intro hca
  exact h1 (hc.le_trans b c a h2 hca)

theorem cmp_lt_of_le_lt (cmp : α → α → Ordering) (hc : LawfulCmp cmp) (a b c : α)
    (h1 : cmpLe cmp a b = true) (h2 : cmp b c = Ordering.lt) : cmp a c = Ordering.lt := by
  rw [cmp_lt_iff_not_le cmp hc] at h2 ⊢
  intro hca
  exact h2 (hc.le_trans c a b hca h1)

theorem cmpLe_of_lt (cmp : α → α → Ordering) (a b : α) (h : cmp a b = Ordering.lt) :
    cmpLe cmp a b = true := by
  rw [cmpLe_true_iff]
  simp [h]

theorem cmp_eq_trans (cmp : α → α → Ordering) (hc : LawfulCmp cmp) (a b c : α)
    (h1 : cmp a b = Ordering.eq) (h2 : cmp b c = Ordering.eq) : cmp a c = Ordering.eq := by
  apply cmp_eq_of_le_le cmp hc
  · exact hc.le_trans a b c (cmpLe_of_eq cmp a b h1) (cmpLe_of_eq cmp b c h2)
  · exact hc.le_trans c b a (cmpLe_of_eq cmp c b ((cmp_eq_comm cmp hc b c).mp h2))
      (cmpLe_of_eq cmp b a ((cmp_eq_comm cmp hc a b).mp h1))

/-! ## Theorems: heap key order and popMin -/

theorem keyLeB_refl (cmp : α → α → Ordering) (hc : LawfulCmp cmp) (e : α × Nat) :
    keyLeB cmp e e = true := by
  simp [keyLeB, cmp_refl cmp hc e.1]

theorem keyLeB_le (cmp : α → α → Ordering) (e f : α × Nat) (h : keyLeB cmp e f = true) :
    cmpLe cmp e.1 f.1 = true := by
  unfold keyLeB at h
  rw [cmpLe_true_iff]
  cases h2 : cmp e.1 f.1 <;> rw [h2] at h <;> simp_all

theorem keyLeB_total (cmp : α → α → Ordering) (hc : LawfulCmp cmp) (e f : α × Nat) :
    keyLeB cmp e f = true ∨ keyLeB cmp f e = true := by
  cases h2 : cmp e.1 f.1
  · left; simp [keyLeB, h2]
  · have h3 : cmp f.1 e.1 = Ordering.eq := (cmp_eq_comm cmp hc e.1 f.1).mp h2
    rcases Nat.le_total e.2 f.2 with h | h
    · left; simp [keyLeB, h2, h]
    · right; simp [keyLeB, h3, h]
  · right
    have h3 : cmp f.1 e.1 = Ordering.lt := (cmp_gt_iff cmp hc e.1 f.1).mp h2
    simp [keyLeB, h3]

theorem keyLeB_trans (cmp : α → α → Ordering) (hc : LawfulCmp cmp) (e f g : α × Nat)
    (h1 : keyLeB cmp e f = true) (h2 : keyLeB cmp f g = true) : keyLeB cmp e g = true := by
  unfold keyLeB at h1 h2
  cases hef : cmp e.1 f.1 <;> rw [hef] at h1
  · cases hfg : cmp f.1 g.1 <;> rw [hfg] at h2
    · simp [keyLeB, cmp_lt_of_lt_le cmp hc e.1 f.1 g.1 hef (cmpLe_of_lt cmp f.1 g.1 hfg)]
    · simp [keyLeB, cmp_lt_of_lt_le cmp hc e.1 f.1 g.1 hef (cmpLe_of_eq cmp f.1 g.1 hfg)]
    · simp at h2
  · cases hfg : cmp f.1 g.1 <;> rw [hfg] at h2
    · simp [keyLeB, cmp_lt_of_le_lt cmp hc e.1 f.1 g.1 (cmpLe_of_eq cmp e.1 f.1 hef) hfg]
    · have he : cmp e.1 g.1 = Ordering.eq := cmp_eq_trans cmp hc e.1 f.1 g.1 hef hfg
      simp only [decide_eq_true_eq] at h1 h2
      simp [keyLeB, he, Nat.le_trans h1 h2]
    · simp at h2
  · simp at h1

theorem popMin_ne_none (cmp : α → α → Ordering) (e : α × Nat) (rest : List (α × Nat)) :
    popMin cmp (e :: rest) ≠ none := by
  simp only [popMin]
  cases h : popMin cmp rest
  · simp
  · rename_i p
    obtain ⟨m, r1⟩ := p
    cases hk : keyLeB cmp e m <;> simp [hk]

theorem popMin_split (cmp : α → α → Ordering) :
    ∀ (l : List (α × Nat)) (e : α × Nat) (r : List (α × Nat)),
      popMin cmp l = some (e, r) → ∃ l1 l2, l = l1 ++ e :: l2 ∧ r = l1 ++ l2 := by
  intro l
  induction l with
  | nil => intro e r h; simp [popMin] at h
  | cons x rest ih =>
    intro e r h
    simp only [popMin] at h
    cases hrec : popMin cmp rest with
    | none =>
      have hr : rest = [] := by
        cases rest with
        | nil => rfl
        | cons y t => exact absurd hrec (popMin_ne_none cmp y t)
      subst hr
      simp only [popMin] at h
      have hp := Option.some.inj h
      have h1 : x = e := congrArg Prod.fst hp
      have h2 : ([] : List (α × Nat)) = r := congrArg Prod.snd hp
      exact ⟨[], [], by simp [h1], by simp [← h2]⟩
    | some p =>
      obtain ⟨m, r1⟩ := p
      rw [hrec] at h
      simp only at h
      by_cases hk : keyLeB cmp x m = true
      · rw [if_pos hk] at h
        have hp := Option.some.inj h
        have h1 : x = e := congrArg Prod.fst hp
        have h2 : rest = r := congrArg Prod.snd hp
        exact ⟨[], rest, by simp [h1], by simp [h2]⟩
      · rw [if_neg hk] at h
        have hp := Option.some.inj h
        have h1 : m = e := congrArg Prod.fst hp
        have h2 : x :: r1 = r := congrArg Prod.snd hp
        obtain ⟨l1, l2, hl, hr1⟩ := ih m r1 hrec
        refine ⟨x :: l1, l2, ?_, ?_⟩
        · simp [hl, h1]
        · rw [← h2, hr1]; rfl

theorem popMin_perm (cmp : α → α → Ordering) (l : List (α × Nat)) (e : α × Nat)
    (r : List (α × Nat)) (h : popMin cmp l = some (e, r)) : l.Perm (e :: r) := by
  obtain ⟨l1, l2, hl, hr⟩ := popMin_split cmp l e r h
  rw [hl, hr]
  exact List.perm_middle

theorem popMin_min (cmp : α → α → Ordering) (hc : LawfulCmp cmp) :
    ∀ (l : List (α × Nat)) (e : α × Nat) (r : List (α × Nat)),
      popMin cmp l = some (e, r) → ∀ f ∈ l, keyLeB cmp e f = true := by
  intro l
  induction l with
  | nil => intro e r h; simp [popMin] at h
  | cons x rest ih =>
    intro e r h f hf
    simp only [popMin] at h
    cases hrec : popMin cmp rest with
    | none =>
      have hr : rest = [] := by
        cases rest with
        | nil => rfl
        | cons y t => exact absurd hrec (popMin_ne_none cmp y t)
      subst hr
      simp only [popMin] at h
      have h1 : x = e := congrArg Prod.fst (Option.some.inj h)
      simp only [List.mem_singleton] at hf
      rw [hf, ← h1]
      exact keyLeB_refl cmp hc x
    | some p =>
      obtain ⟨m, r1⟩ := p
      rw [hrec] at h
      simp only at h
      by_cases hk : keyLeB cmp x m = true
      · rw [if_pos hk] at h
        have h1 : x = e := congrArg Prod.fst (Option.some.inj h)
        rcases List.mem_cons.mp hf with hfx | hfr
        · rw [← h1, hfx]; exact keyLeB_refl cmp hc x
        · exact keyLeB_trans cmp hc e m f (h1 ▸ hk) (ih m r1 hrec f hfr)
      · rw [if_neg hk] at h
        have h1 : m = e := congrArg Prod.fst (Option.some.inj h)
        rcases List.mem_cons.mp hf with hfx | hfr
        · rcases keyLeB_total cmp hc x m with ht | ht
          · exact absurd ht hk
          · rw [← h1, hfx]; exact ht
        · rw [← h1]; exact ih m r1 hrec f hfr

/-! ## Theorems: measure accounting and run stabilisation -/

theorem getD_nil_of_ge (l : List (List γ)) (i : Nat) (h : l.length ≤ i) :
    l.getD i [] = [] := by
  rw [List.getD_eq_getElem?_getD, List.getElem?_eq_none h]
  rfl

theorem lt_length_of_getD_ne_nil (l : List (List γ)) (i : Nat)
    (h : l.getD i [] ≠ []) : i < l.length := by
  by_contra hn
  exact h (getD_nil_of_ge l i (Nat.le_of_not_lt hn))

theorem chunksLen_set (cs : List (List (Except ε α))) :
    ∀ (i : Nat) (c : List (Except ε α)), i < cs.length →
      chunksLen (cs.set i c) + (cs.getD i []).length = chunksLen cs + c.length := by
  induction cs with
  | nil => intro i c h; simp at h
  | cons x t ih =>
    intro i c h
    cases i with
    | zero => simp [chunksLen]; omega
    | succ j =>
      have hj : j < t.length := by simpa using h
      have := ih j c hj
      simp only [List.set_cons_succ, List.getD_cons_succ, chunksLen, List.map_cons,
        List.sum_cons] at this ⊢
      omega

theorem initChunks_len (ε : Type) :
    ∀ (cs : List (List (Except ε α))) (idx : Nat),
      chunksLen ((initChunks idx cs).1) + ((initChunks idx cs).2.1).length +
        (if ((initChunks idx cs).2.2).isSome then 1 else 0) = chunksLen cs := by
  intro cs
  induction cs with
  | nil => intro idx; simp [initChunks, chunksLen]
  | cons x t ih =>
    intro idx
    cases x with
    | nil =>
      have := ih (idx + 1)
      simp only [initChunks, chunksLen, List.map_cons, List.sum_cons] at this ⊢
      omega
    | cons y c =>
      cases y with
      | ok a =>
        have := ih (idx + 1)
        simp only [initChunks, chunksLen, List.map_cons, List.sum_cons, List.length_cons]
          at this ⊢
        omega
      | error e =>
        simp [initChunks, chunksLen]
        omega

theorem initChunks_all_nil (ε : Type) :
    ∀ (cs : List (List (Except ε α))) (idx : Nat), (∀ c ∈ cs, c = []) →
      initChunks idx cs = (cs, [], none) := by
  intro cs
  induction cs with
  | nil => intro idx h; rfl
  | cons x t ih =>
    intro idx h
    have hx : x = [] := h x (List.mem_cons_self x t)
    subst hx
    have := ih (idx + 1) (fun c hc => h c (List.mem_cons_of_mem [] hc))
    simp [initChunks, this]

theorem mergerNext_initiated (cmp : α → α → Ordering) (m : BinaryHeapMerger α ε)
    (h : m.initiated = true) : mergerNext cmp m = mergerPop cmp m := by
  unfold mergerNext
  rw [h]
  simp

theorem mergerNext_uninit_err (cmp : α → α → Ordering) (m : BinaryHeapMerger α ε)
    (h : m.initiated = false) (cs : List (List (Except ε α))) (hs : List (α × Nat)) (e : ε)
    (ht : initChunks 0 m.chunks = (cs, hs, some e)) :
    mergerNext cmp m =
      (some (Except.error e), BinaryHeapMerger.mk (m.items ++ hs) cs false) := by
  unfold mergerNext
  rw [h, ht]
  simp

theorem mergerNext_uninit_ok (cmp : α → α → Ordering) (m : BinaryHeapMerger α ε)
    (h : m.initiated = false) (cs : List (List (Except ε α))) (hs : List (α × Nat))
    (ht : initChunks 0 m.chunks = (cs, hs, none)) :
    mergerNext cmp m = mergerPop cmp (BinaryHeapMerger.mk (m.items ++ hs) cs true) := by
  unfold mergerNext
  rw [h, ht]
  simp

theorem mergerPop_measure (cmp : α → α → Ordering) (m1 m2 : BinaryHeapMerger α ε)
    (r : Except ε α) (h : mergerPop cmp m1 = (some r, m2)) : measureM m2 < measureM m1 := by
  unfold mergerPop at h
  cases hpop : popMin cmp m1.items with
  | none => rw [hpop] at h; simp at h
  | some p =>
    obtain ⟨⟨a, i⟩, rest⟩ := p
    rw [hpop] at h
    simp only at h
    have hlen : m1.items.length = rest.length + 1 := by
      have := (popMin_perm cmp m1.items (a, i) rest hpop).length_eq
      simpa using this
    cases hch : m1.chunks.getD i [] with
    | nil =>
      rw [hch] at h
      have hm2 := congrArg Prod.snd h
      simp only at hm2
      rw [← hm2]
      simp [measureM, hlen]
    | cons y c =>
      have hi : i < m1.chunks.length :=
        lt_length_of_getD_ne_nil m1.chunks i (by rw [hch]; simp)
      have hacc := chunksLen_set m1.chunks i c hi
      rw [hch] at hacc
      cases y with
      | ok b =>
        rw [hch] at h
        simp only at h
        have hm2 := congrArg Prod.snd h
        simp only at hm2
        rw [← hm2]
        simp only [measureM, List.length_append, List.length_cons, List.length_nil] at hacc ⊢
        simp only [hlen]
        omega
      | error e =>
        rw [hch] at h
        simp only at h
        have hm2 := congrArg Prod.snd h
        simp only at hm2
        rw [← hm2]
        simp only [measureM, List.length_cons] at hacc ⊢
        simp only [hlen]
        omega

theorem mergerNext_measure (cmp : α → α → Ordering) (m m2 : BinaryHeapMerger α ε)
    (r : Except ε α) (h : mergerNext cmp m = (some r, m2)) : measureM m2 < measureM m := by
  cases hinit : m.initiated with
  | true =>
    rw [mergerNext_initiated cmp m hinit] at h
    exact mergerPop_measure cmp m m2 r h
  | false =>
    have hacc := initChunks_len ε m.chunks 0
    cases herr : (initChunks 0 m.chunks).2.2 with
    | some e =>
      rw [mergerNext_uninit_err cmp m hinit (initChunks 0 m.chunks).1
        (initChunks 0 m.chunks).2.1 e (by rw [← herr])] at h
      have hm2 := congrArg Prod.snd h
      simp only at hm2
      rw [herr] at hacc
      simp only [Option.isSome_some, if_true] at hacc
      rw [← hm2]
      simp only [measureM, List.length_append]
      omega
    | none =>
      rw [mergerNext_uninit_ok cmp m hinit (initChunks 0 m.chunks).1
        (initChunks 0 m.chunks).2.1 (by rw [← herr])] at h
      have hlt := mergerPop_measure cmp
        (BinaryHeapMerger.mk (m.items ++ (initChunks 0 m.chunks).2.1)
          (initChunks 0 m.chunks).1 true) m2 r h
      rw [herr] at hacc
      simp only [Option.isSome_none, Bool.false_eq_true, if_false] at hacc
      simp only [measureM, List.length_append] at hlt ⊢
      omega

theorem mergerNext_measure_zero (cmp : α → α → Ordering) (m : BinaryHeapMerger α ε)
    (h : measureM m = 0) : mergerNext cmp m = (none, mergerNext cmp m |>.2) := by
  have hitems : m.items = [] := by
    have : m.items.length = 0 := by
      simp only [measureM] at h; omega
    exact List.length_eq_zero.mp this
  have hch : ∀ c ∈ m.chunks, c = [] := by
    intro c hcmem
    have hz : chunksLen m.chunks = 0 := by
      simp only [measureM] at h; omega
    have : c.length = 0 := by
      have := List.sum_eq_zero_iff.mp hz (c.length) (List.mem_map_of_mem List.length hcmem)
      exact this
    exact List.length_eq_zero.mp this
  cases hinit : m.initiated with
  | true =>
    rw [mergerNext_initiated cmp m hinit]
    unfold mergerPop
    rw [hitems]
    simp [popMin]
  | false =>
    rw [mergerNext_uninit_ok cmp m hinit m.chunks []
      (initChunks_all_nil ε m.chunks 0 hch)]
    unfold mergerPop
    simp [hitems, popMin]

theorem mergerRun_measure_zero (cmp : α → α → Ordering) (m : BinaryHeapMerger α ε)
    (h : measureM m = 0) : ∀ f, mergerRun cmp f m = [] := by
  intro f
  cases f with
  | zero => rfl
  | succ g =>
    simp only [mergerRun]
    rw [mergerNext_measure_zero cmp m h]

theorem mergerRun_eq_of_le (cmp : α → α → Ordering) :
    ∀ (k : Nat) (m : BinaryHeapMerger α ε) (f1 f2 : Nat),
      measureM m ≤ k → k ≤ f1 → k ≤ f2 → mergerRun cmp f1 m = mergerRun cmp f2 m := by
  intro k
  induction k with
  | zero =>
    intro m f1 f2 hm h1 h2
    have h0 : measureM m = 0 := Nat.le_zero.mp hm
    rw [mergerRun_measure_zero cmp m h0 f1, mergerRun_measure_zero cmp m h0 f2]
  | succ k ih =>
    intro m f1 f2 hm h1 h2
    cases f1 with
    | zero => omega
    | succ a =>
      cases f2 with
      | zero => omega
      | succ b =>
        simp only [mergerRun]
        cases hn : mergerNext cmp m with
        | mk o m2 =>
          cases o with
          | none => rfl
          | some r =>
            have hlt := mergerNext_measure cmp m m2 r hn
            have hk : measureM m2 ≤ k := by omega
            simp only
            rw [ih m2 a b hk (by omega) (by omega)]

theorem mergerRun_eq_collect (cmp : α → α → Ordering) (m : BinaryHeapMerger α ε)
    (fuel : Nat) (h : measureM m ≤ fuel) : mergerRun cmp fuel m = mergerCollect cmp m :=
  mergerRun_eq_of_le cmp (measureM m) m fuel (measureM m) (Nat.le_refl _) h (Nat.le_refl _)

/-! ## Theorems: the initial population on error free chunks -/

theorem initChunks_okChunks (ε : Type) :
    ∀ (rs : List (List α)) (idx : Nat),
      initChunks idx (okChunks ε rs) =
        (okChunks ε (rs.map List.tail), initHeap idx rs, none) := by
  intro rs
  induction rs with
  | nil => intro idx; rfl
  | cons r t ih =>
    intro idx
    cases r with
    | nil =>
      simp only [okChunks, List.map_cons, List.map_nil, initChunks, initHeap]
      rw [show (List.map (List.map Except.ok) t) = okChunks ε t from rfl, ih (idx + 1)]
      simp [okChunks, List.tail]
    | cons a t1 =>
      simp only [okChunks, List.map_cons, initChunks, initHeap]
      rw [show (List.map (List.map Except.ok) t) = okChunks ε t from rfl, ih (idx + 1)]
      simp [okChunks, List.tail]

theorem initHeap_mem_spec :
    ∀ (rs : List (List α)) (idx : Nat) (e : α × Nat), e ∈ initHeap idx rs →
      idx ≤ e.2 ∧ e.2 - idx < rs.length ∧
        rs.getD (e.2 - idx) [] = e.1 :: (rs.getD (e.2 - idx) []).tail := by
  intro rs
  induction rs with
  | nil => intro idx e h; simp [initHeap] at h
  | cons r t ih =>
    intro idx e h
    cases r with
    | nil =>
      simp only [initHeap] at h
      obtain ⟨h1, h2, h3⟩ := ih (idx + 1) e h
      have hd : e.2 - idx = (e.2 - (idx + 1)) + 1 := by omega
      refine ⟨by omega, by simp; omega, ?_⟩
      rw [hd, List.getD_cons_succ]
      exact h3
    | cons a t1 =>
      simp only [initHeap, List.mem_cons] at h
      rcases h with he | h
      · subst he
        simp
      · obtain ⟨h1, h2, h3⟩ := ih (idx + 1) e h
        have hd : e.2 - idx = (e.2 - (idx + 1)) + 1 := by omega
        refine ⟨by omega, by simp; omega, ?_⟩
        rw [hd, List.getD_cons_succ]
        exact h3

theorem initHeap_covers :
    ∀ (rs : List (List α)) (idx i : Nat), i < rs.length →
      ∀ a t1, rs.getD i [] = a :: t1 → (a, idx + i) ∈ initHeap idx rs := by
  intro rs
  induction rs with
  | nil => intro idx i h; simp at h
  | cons r t ih =>
    intro idx i h a t1 hget
    cases i with
    | zero =>
      simp only [List.getD_cons_zero] at hget
      subst hget
      simp [initHeap]
    | succ j =>
      have hj : j < t.length := by simpa using h
      simp only [List.getD_cons_succ] at hget
      have hmem := ih (idx + 1) j hj a t1 hget
      have harith : idx + 1 + j = idx + (j + 1) := by omega
      rw [harith] at hmem
      cases r with
      | nil => simpa [initHeap] using hmem
      | cons b t2 =>
        simp only [initHeap]
        exact List.mem_cons_of_mem (b, idx) hmem

theorem initHeap_snd_nodup :
    ∀ (rs : List (List α)) (idx : Nat), ((initHeap idx rs).map Prod.snd).Nodup := by
  intro rs
  induction rs with
  | nil => intro idx; simp [initHeap]
  | cons r t ih =>
    intro idx
    cases r with
    | nil => simpa [initHeap] using ih (idx + 1)
    | cons a t1 =>
      simp only [initHeap, List.map_cons, List.nodup_cons]
      refine ⟨?_, ih (idx + 1)⟩
      intro hmem
      obtain ⟨e, hmem2, hsnd⟩ := List.mem_map.mp hmem
      have := (initHeap_mem_spec t (idx + 1) e hmem2).1
      omega

theorem getD_map_tail (rs : List (List α)) (i : Nat) :
    (rs.map List.tail).getD i [] = (rs.getD i []).tail := by
  rw [List.getD_eq_getElem?_getD, List.getD_eq_getElem?_getD, List.getElem?_map]
  cases rs[i]? <;> simp

theorem filter_snd_eq_singleton :
    ∀ (h : List (α × Nat)) (e : α × Nat), (h.map Prod.snd).Nodup → e ∈ h →
      h.filter (fun f => f.2 == e.2) = [e] := by
  intro h
  induction h with
  | nil => intro e hnd hmem; simp at hmem
  | cons x t ih =>
    intro e hnd hmem
    simp only [List.map_cons, List.nodup_cons] at hnd
    rcases List.mem_cons.mp hmem with he | hmem2
    · subst he
      simp only [List.filter_cons, beq_self_eq_true, if_true]
      have hnil : t.filter (fun f => f.2 == e.2) = [] := by
        rw [List.filter_eq_nil_iff]
        intro f hf hbeq
        have hfe : f.2 = e.2 := by simpa using hbeq
        have hin : e.2 ∈ List.map Prod.snd t := by
          rw [← hfe]; exact List.mem_map_of_mem Prod.snd hf
        exact hnd.1 hin
      rw [hnil]
    · have hne : (x.2 == e.2) = false := by
        rw [beq_eq_false_iff_ne]
        intro hxe
        have hin : e.2 ∈ List.map Prod.snd t := List.mem_map_of_mem Prod.snd hmem2
        rw [← hxe] at hin
        exact hnd.1 hin
      simp only [List.filter_cons, hne, if_false]
      exact ih e hnd.2 hmem2

theorem filter_snd_eq_nil (h : List (α × Nat)) (i : Nat) (hno : ∀ a, (a, i) ∉ h) :
    h.filter (fun f => f.2 == i) = [] := by
  rw [List.filter_eq_nil_iff]
  intro f hf hbeq
  have hfi : f.2 = i := by simpa using hbeq
  have hmm2 : (f.1, f.2) ∈ h := by simpa using hf
  rw [hfi] at hmm2
  exact hno f.1 hmm2

/-! ## Theorems: k way merge invariant lemmas -/

theorem getD_okChunks (ε : Type) (rs : List (List α)) (i : Nat) :
    (okChunks ε rs).getD i [] = (rs.getD i []).map Except.ok := by
  unfold okChunks
  rw [List.getD_eq_getElem?_getD, List.getD_eq_getElem?_getD, List.getElem?_map]
  cases rs[i]? <;> simp

theorem okChunks_set (ε : Type) (rs : List (List α)) (i : Nat) (r1 : List α) :
    (okChunks ε rs).set i (r1.map Except.ok) = okChunks ε (rs.set i r1) := by
  unfold okChunks
  rw [← List.map_set]

theorem getD_set_self (l : List (List γ)) (i : Nat) (x : List γ) (h : i < l.length) :
    (l.set i x).getD i [] = x := by
  rw [List.getD_eq_getElem?_getD, List.getElem?_set_self h]
  rfl

theorem getD_set_ne (l : List (List γ)) (i j : Nat) (x : List γ) (h : i ≠ j) :
    (l.set i x).getD j [] = l.getD j [] := by
  rw [List.getD_eq_getElem?_getD, List.getD_eq_getElem?_getD, List.getElem?_set_ne h]

theorem mem_getD_flatten (rs : List (List α)) (j : Nat) (y : α) (hj : j < rs.length)
    (hy : y ∈ rs.getD j []) : y ∈ rs.flatten := by
  rw [List.getD_eq_getElem?_getD, List.getElem?_eq_getElem hj] at hy
  exact List.mem_flatten_of_mem (List.getElem_mem hj) hy

theorem getD_mem_of_lt (rs : List (List α)) (j : Nat) (hj : j < rs.length) :
    rs.getD j [] ∈ rs := by
  rw [List.getD_eq_getElem?_getD, List.getElem?_eq_getElem hj]
  exact List.getElem_mem hj

theorem popMin_rest_subset (cmp : α → α → Ordering) (h : List (α × Nat)) (a : α) (i : Nat)
    (rest : List (α × Nat)) (hpop : popMin cmp h = some ((a, i), rest)) :
    ∀ e ∈ rest, e ∈ h := by
  intro e he
  obtain ⟨l1, l2, hl, hr⟩ := popMin_split cmp h (a, i) rest hpop
  rw [hl]
  rw [hr] at he
  rcases List.mem_append.mp he with h1 | h2
  · exact List.mem_append.mpr (Or.inl h1)
  · exact List.mem_append.mpr (Or.inr (List.mem_cons_of_mem (a, i) h2))

theorem popMin_mem_rest_of_ne (cmp : α → α → Ordering) (h : List (α × Nat)) (a : α) (i : Nat)
    (rest : List (α × Nat)) (hpop : popMin cmp h = some ((a, i), rest)) :
    ∀ e ∈ h, e ≠ (a, i) → e ∈ rest := by
  intro e he hne
  obtain ⟨l1, l2, hl, hr⟩ := popMin_split cmp h (a, i) rest hpop
  rw [hl] at he
  rw [hr]
  rcases List.mem_append.mp he with h1 | h2
  · exact List.mem_append.mpr (Or.inl h1)
  · rcases List.mem_cons.mp h2 with h3 | h4
    · exact absurd h3 hne
    · exact List.mem_append.mpr (Or.inr h4)

theorem popMin_lower_bound (cmp : α → α → Ordering) (hc : LawfulCmp cmp)
    (h : List (α × Nat)) (rs : List (List α)) (hInv : MergerInv cmp h rs)
    (a : α) (i : Nat) (rest : List (α × Nat))
    (hpop : popMin cmp h = some ((a, i), rest)) :
    ∀ y, y ∈ h.map Prod.fst ++ rs.flatten → cmpLe cmp a y = true := by
  obtain ⟨hsort, hent, hcov⟩ := hInv
  intro y hy
  rcases List.mem_append.mp hy with hy | hy
  · obtain ⟨e, he, hfst⟩ := List.mem_map.mp hy
    have hk := popMin_min cmp hc h (a, i) rest hpop e he
    have hle := keyLeB_le cmp (a, i) e hk
    rw [hfst] at hle
    exact hle
  · obtain ⟨r, hr, hyr⟩ := List.mem_flatten.mp hy
    obtain ⟨j, hj, hget⟩ := List.getElem_of_mem hr
    have hgetD : rs.getD j [] = r := by
      rw [List.getD_eq_getElem?_getD, List.getElem?_eq_getElem hj, hget]
      rfl
    have hne : rs.getD j [] ≠ [] := by
      rw [hgetD]
      intro hcontra
      rw [hcontra] at hyr
      simp at hyr
    obtain ⟨c, hcmem⟩ := hcov j hj hne
    have hk := popMin_min cmp hc h (a, i) rest hpop (c, j) hcmem
    have h1 : cmpLe cmp a c = true := keyLeB_le cmp (a, i) (c, j) hk
    have h2 : cmpLe cmp c y = true := (hent (c, j) hcmem).2 y (by rw [hgetD]; exact hyr)
    exact hc.le_trans a c y h1 h2

theorem flatten_set_eq :
    ∀ (rs : List (List α)) (i : Nat) (x : List α), i < rs.length →
      ∃ L R, rs.flatten = L ++ (rs.getD i [] ++ R) ∧
        (rs.set i x).flatten = L ++ (x ++ R) := by
  intro rs
  induction rs with
  | nil => intro i x h; simp at h
  | cons r t ih =>
    intro i x h
    cases i with
    | zero => exact ⟨[], t.flatten, by simp, by simp⟩
    | succ j =>
      have hj : j < t.length := by simpa using h
      obtain ⟨L, R, h1, h2⟩ := ih j x hj
      refine ⟨r ++ L, R, ?_, ?_⟩
      · simp [h1]
      · simp [h2]

theorem chunksLen_okChunks (ε : Type) (rs : List (List α)) :
    chunksLen (okChunks ε rs) = (rs.map List.length).sum := by
  unfold chunksLen okChunks
  rw [List.map_map]
  congr 1
  apply List.map_congr_left
  intro r hr
  simp

/-! ## Theorems: the merge produces a sorted permutation (master lemma) -/

theorem merger_sorted_perm (ε : Type) (cmp : α → α → Ordering) (hc : LawfulCmp cmp) :
    ∀ (fuel : Nat) (h : List (α × Nat)) (rs : List (List α)),
      MergerInv cmp h rs →
      measureM (BinaryHeapMerger.mk h (okChunks ε rs) true) ≤ fuel →
      ∃ ys : List α,
        mergerRun cmp fuel (BinaryHeapMerger.mk h (okChunks ε rs) true) = ys.map Except.ok ∧
        ys.Perm (h.map Prod.fst ++ rs.flatten) ∧
        ys.Pairwise (fun a b => cmpLe cmp a b = true) := by
  intro fuel
  induction fuel with
  | zero =>
    intro h rs hInv hm
    have hh : h = [] := by
      simp only [measureM] at hm
      exact List.length_eq_zero.mp (by omega)
    have hflat : rs.flatten = [] := by
      rw [List.flatten_eq_nil_iff]
      intro r hr
      simp only [measureM, chunksLen_okChunks] at hm
      have hz : (rs.map List.length).sum = 0 := by omega
      exact List.length_eq_zero.mp
        (List.sum_eq_zero_iff.mp hz r.length (List.mem_map_of_mem List.length hr))
    exact ⟨[], rfl, by simp [hh, hflat], List.Pairwise.nil⟩
  | succ f ih =>
    intro h rs hInv hm
    cases hpop : popMin cmp h with
    | none =>
      have hh : h = [] := by
        cases h with
        | nil => rfl
        | cons e t => exact absurd hpop (popMin_ne_none cmp e t)
      have hstep : mergerNext cmp (BinaryHeapMerger.mk h (okChunks ε rs) true) =
          (none, BinaryHeapMerger.mk h (okChunks ε rs) true) := by
        rw [mergerNext_initiated cmp _ rfl]
        unfold mergerPop
        simp only [hpop]
      have hflat : rs.flatten = [] := by
        rw [List.flatten_eq_nil_iff]
        intro r hr
        obtain ⟨j, hj, hget⟩ := List.getElem_of_mem hr
        by_contra hne
        have hgetD : rs.getD j [] = r := by
          rw [List.getD_eq_getElem?_getD, List.getElem?_eq_getElem hj, hget]
          rfl
        obtain ⟨c, hcmem⟩ := hInv.2.2 j hj (by rw [hgetD]; exact hne)
        rw [hh] at hcmem
        simp at hcmem
      refine ⟨[], ?_, by simp [hh, hflat], List.Pairwise.nil⟩
      simp only [mergerRun]
      rw [hstep]
      rfl
    | some p =>
      obtain ⟨⟨a, i⟩, rest⟩ := p
      have hmem_ai : (a, i) ∈ h := by
        obtain ⟨l1, l2, hl, _⟩ := popMin_split cmp h (a, i) rest hpop
        rw [hl]
        exact List.mem_append.mpr (Or.inr (List.mem_cons_self _ _))
      have hi : i < rs.length := (hInv.2.1 (a, i) hmem_ai).1
      have hbound := popMin_lower_bound cmp hc h rs hInv a i rest hpop
      have hpm : (h.map Prod.fst).Perm (a :: rest.map Prod.fst) := by
        simpa using (popMin_perm cmp h (a, i) rest hpop).map Prod.fst
      cases hrun : rs.getD i [] with
      | nil =>
        have hstep : mergerNext cmp (BinaryHeapMerger.mk h (okChunks ε rs) true) =
            (some (Except.ok a), BinaryHeapMerger.mk rest (okChunks ε rs) true) := by
          rw [mergerNext_initiated cmp _ rfl]
          unfold mergerPop
          simp only [hpop, getD_okChunks, hrun, List.map_nil]
        have hInv2 : MergerInv cmp rest rs := by
          refine ⟨hInv.1, ?_, ?_⟩
          · intro e he
            exact hInv.2.1 e (popMin_rest_subset cmp h a i rest hpop e he)
          · intro j hj hne
            obtain ⟨c, hcmem⟩ := hInv.2.2 j hj hne
            refine ⟨c, popMin_mem_rest_of_ne cmp h a i rest hpop (c, j) hcmem ?_⟩
            intro hceq
            have hji : j = i := congrArg Prod.snd hceq
            rw [hji, hrun] at hne
            exact hne rfl
        have hmeas : measureM (BinaryHeapMerger.mk rest (okChunks ε rs) true) ≤ f := by
          have := mergerNext_measure cmp (BinaryHeapMerger.mk h (okChunks ε rs) true)
            (BinaryHeapMerger.mk rest (okChunks ε rs) true) (Except.ok a) hstep
          omega
        obtain ⟨ys1, heq1, hperm1, hsort1⟩ := ih rest rs hInv2 hmeas
        refine ⟨a :: ys1, ?_, ?_, ?_⟩
        · simp only [mergerRun]
          rw [hstep]
          simp only [heq1, List.map_cons]
        · exact (hperm1.cons a).trans (hpm.symm.append_right rs.flatten)
        · rw [List.pairwise_cons]
          refine ⟨?_, hsort1⟩
          intro y hy
          have hy2 := hperm1.subset hy
          apply hbound
          rcases List.mem_append.mp hy2 with h1 | h2
          · obtain ⟨e, he, hef⟩ := List.mem_map.mp h1
            exact List.mem_append.mpr (Or.inl (List.mem_map.mpr
              ⟨e, popMin_rest_subset cmp h a i rest hpop e he, hef⟩))
          · exact List.mem_append.mpr (Or.inr h2)
      | cons b r1 =>
        have hrun_sorted : (b :: r1).Pairwise (fun x y => cmpLe cmp x y = true) := by
          have := hInv.1 (rs.getD i []) (getD_mem_of_lt rs i hi)
          rwa [hrun] at this
        have hb_le : ∀ x ∈ r1, cmpLe cmp b x = true := (List.pairwise_cons.mp hrun_sorted).1
        have hr1_sorted := (List.pairwise_cons.mp hrun_sorted).2
        have hstep : mergerNext cmp (BinaryHeapMerger.mk h (okChunks ε rs) true) =
            (some (Except.ok a),
              BinaryHeapMerger.mk (rest ++ [(b, i)]) (okChunks ε (rs.set i r1)) true) := by
          rw [mergerNext_initiated cmp _ rfl]
          unfold mergerPop
          simp only [hpop, getD_okChunks, hrun, List.map_cons]
          rw [okChunks_set]
        have hInv2 : MergerInv cmp (rest ++ [(b, i)]) (rs.set i r1) := by
          refine ⟨?_, ?_, ?_⟩
          · intro r hr2
            rcases List.mem_or_eq_of_mem_set hr2 with hro | hrn
            · exact hInv.1 r hro
            · rw [hrn]; exact hr1_sorted
          · intro e he2
            rcases List.mem_append.mp he2 with hre | hbe
            · obtain ⟨hlt, hval⟩ := hInv.2.1 e (popMin_rest_subset cmp h a i rest hpop e hre)
              refine ⟨by simpa using hlt, ?_⟩
              intro x hx
              by_cases hei : e.2 = i
              · rw [hei, getD_set_self rs i r1 hi] at hx
                exact hval x (by rw [hei, hrun]; exact List.mem_cons_of_mem b hx)
              · rw [getD_set_ne rs i e.2 r1 (fun hcc => hei hcc.symm)] at hx
                exact hval x hx
            · have hbe2 : e = (b, i) := by simpa using hbe
              subst hbe2
              refine ⟨by simpa using hi, ?_⟩
              intro x hx
              rw [getD_set_self rs i r1 hi] at hx
              exact hb_le x hx
          · intro j hj hne
            have hj2 : j < rs.length := by simpa using hj
            by_cases hji : j = i
            · subst hji
              exact ⟨b, List.mem_append.mpr (Or.inr (List.mem_singleton.mpr rfl))⟩
            · rw [getD_set_ne rs i j r1 (fun hcc => hji hcc.symm)] at hne
              obtain ⟨c, hcmem⟩ := hInv.2.2 j hj2 hne
              refine ⟨c, List.mem_append.mpr (Or.inl
                (popMin_mem_rest_of_ne cmp h a i rest hpop (c, j) hcmem ?_))⟩
              intro hceq
              exact hji (congrArg Prod.snd hceq)
        have hmeas : measureM (BinaryHeapMerger.mk (rest ++ [(b, i)])
            (okChunks ε (rs.set i r1)) true) ≤ f := by
          have := mergerNext_measure cmp (BinaryHeapMerger.mk h (okChunks ε rs) true)
            (BinaryHeapMerger.mk (rest ++ [(b, i)]) (okChunks ε (rs.set i r1)) true)
            (Except.ok a) hstep
          omega
        obtain ⟨ys1, heq1, hperm1, hsort1⟩ := ih (rest ++ [(b, i)]) (rs.set i r1) hInv2 hmeas
        obtain ⟨L, R, hfl1, hfl2⟩ := flatten_set_eq rs i r1 hi
        rw [hrun] at hfl1
        refine ⟨a :: ys1, ?_, ?_, ?_⟩
        · simp only [mergerRun]
          rw [hstep]
          simp only [heq1, List.map_cons]
        · rw [← Multiset.coe_eq_coe] at hperm1 ⊢
          have hpmm : (Multiset.ofList (h.map Prod.fst)) =
              Multiset.ofList (a :: rest.map Prod.fst) := Multiset.coe_eq_coe.mpr hpm
          rw [hfl2] at hperm1
          rw [hfl1]
          simp only [List.map_append, List.map_cons, List.map_nil, ← Multiset.cons_coe,
            ← Multiset.coe_add, ← Multiset.singleton_add, Multiset.coe_nil, add_zero]
            at hperm1 hpmm ⊢
          rw [hperm1, hpmm]
          abel
        · rw [List.pairwise_cons]
          refine ⟨?_, hsort1⟩
          intro y hy
          have hy2 := hperm1.subset hy
          apply hbound
          rcases List.mem_append.mp hy2 with h1 | h2
          · rw [List.map_append] at h1
            rcases List.mem_append.mp h1 with h3 | h4
            · obtain ⟨e, he, hef⟩ := List.mem_map.mp h3
              exact List.mem_append.mpr (Or.inl (List.mem_map.mpr
                ⟨e, popMin_rest_subset cmp h a i rest hpop e he, hef⟩))
            · have hyb : y = b := by simpa using h4
              refine List.mem_append.mpr (Or.inr ?_)
              refine mem_getD_flatten rs i y hi ?_
              rw [hrun, hyb]
              exact List.mem_cons_self b r1
          · rw [hfl2] at h2
            refine List.mem_append.mpr (Or.inr ?_)
            rw [hfl1]
            rcases List.mem_append.mp h2 with h5 | h6
            · exact List.mem_append.mpr (Or.inl h5)
            · rcases List.mem_append.mp h6 with h7 | h8
              · exact List.mem_append.mpr (Or.inr (List.mem_append.mpr (Or.inl
                  (List.mem_cons_of_mem b h7))))
              · exact List.mem_append.mpr (Or.inr (List.mem_append.mpr (Or.inr h8)))

/-! ## Theorems: run creation and the initial merger state -/

theorem sortByRuns_ok (ε : Type) (cmp : α → α → Ordering) (isFull : List α → Bool) :
    ∀ (xs : List α) (buf : List α),
      ∃ pieces : List (List α),
        sortByRuns cmp isFull (xs.map Except.ok : List (Except ε α)) buf =
          Except.ok (pieces.map (parSortBy cmp)) ∧
        pieces.flatten = buf ++ xs := by
  intro xs
  induction xs with
  | nil =>
    intro buf
    cases hb : buf with
    | nil => exact ⟨[], by simp [sortByRuns], by simp⟩
    | cons y t =>
      refine ⟨[y :: t], ?_, by simp⟩
      simp [sortByRuns]
  | cons x xs2 ih =>
    intro buf
    simp only [List.map_cons, sortByRuns]
    by_cases hf : isFull (buf ++ [x]) = true
    · rw [if_pos hf]
      obtain ⟨pieces1, h1, h2⟩ := ih []
      refine ⟨(buf ++ [x]) :: pieces1, ?_, ?_⟩
      · rw [h1]
        rfl
      · simp [h2]
    · rw [if_neg hf]
      obtain ⟨pieces1, h1, h2⟩ := ih (buf ++ [x])
      refine ⟨pieces1, h1, ?_⟩
      simp [h2]

theorem initial_inv (cmp : α → α → Ordering) (rs : List (List α))
    (hsorted : ∀ r ∈ rs, r.Pairwise (fun a b => cmpLe cmp a b = true)) :
    MergerInv cmp (initHeap 0 rs) (rs.map List.tail) := by
  refine ⟨?_, ?_, ?_⟩
  · intro r hr
    obtain ⟨r0, hr0, htl⟩ := List.mem_map.mp hr
    rw [← htl]
    exact (hsorted r0 hr0).sublist (List.tail_sublist r0)
  · intro e he
    obtain ⟨h1, h2, h3⟩ := initHeap_mem_spec rs 0 e he
    rw [Nat.sub_zero] at h2 h3
    refine ⟨by simpa using h2, ?_⟩
    intro b hb
    rw [getD_map_tail] at hb
    obtain ⟨t2, ht2⟩ : ∃ t2, rs.getD e.2 [] = e.1 :: t2 := ⟨(rs.getD e.2 []).tail, h3⟩
    have hsr := hsorted (rs.getD e.2 []) (getD_mem_of_lt rs e.2 h2)
    rw [ht2] at hsr hb
    simp only [List.tail_cons] at hb
    exact (List.pairwise_cons.mp hsr).1 b hb
  · intro j hj hne
    have hj2 : j < rs.length := by simpa using hj
    rw [getD_map_tail] at hne
    cases hget : rs.getD j [] with
    | nil => rw [hget] at hne; simp at hne
    | cons a0 t0 =>
      refine ⟨a0, ?_⟩
      have := initHeap_covers rs 0 j hj2 a0 t0 hget
      simpa using this

theorem mergerRun_new_okChunks (ε : Type) (cmp : α → α → Ordering) (rs : List (List α))
    (fuel : Nat) :
    mergerRun cmp fuel (BinaryHeapMerger.new (okChunks ε rs)) =
      mergerRun cmp fuel
        (BinaryHeapMerger.mk (initHeap 0 rs) (okChunks ε (rs.map List.tail)) true) := by
  cases fuel with
  | zero => rfl
  | succ f =>
    simp only [mergerRun]
    have h1 : mergerNext cmp (BinaryHeapMerger.new (okChunks ε rs)) =
        mergerPop cmp
          (BinaryHeapMerger.mk (initHeap 0 rs) (okChunks ε (rs.map List.tail)) true) := by
      rw [mergerNext_uninit_ok cmp _ rfl (okChunks ε (rs.map List.tail)) (initHeap 0 rs)
        (initChunks_okChunks ε rs 0)]
      simp [BinaryHeapMerger.new]
    have h2 : mergerNext cmp
        (BinaryHeapMerger.mk (initHeap 0 rs) (okChunks ε (rs.map List.tail)) true) =
        mergerPop cmp
          (BinaryHeapMerger.mk (initHeap 0 rs) (okChunks ε (rs.map List.tail)) true) :=
      mergerNext_initiated cmp _ rfl
    rw [h1, h2]

theorem measure_new_okChunks (ε : Type) (rs : List (List α)) :
    measureM (BinaryHeapMerger.mk (initHeap 0 rs) (okChunks ε (rs.map List.tail)) true) =
      measureM (BinaryHeapMerger.new (okChunks ε rs)) := by
  have hacc := initChunks_len ε (okChunks ε rs) 0
  rw [initChunks_okChunks ε rs 0] at hacc
  simp only [Option.isSome_none, Bool.false_eq_true, if_false] at hacc
  simp only [measureM, BinaryHeapMerger.new, List.length_nil]
  omega

theorem flatten_map_perm (f : List α → List α) (hf : ∀ r, (f r).Perm r) :
    ∀ (rs : List (List α)), ((rs.map f).flatten).Perm rs.flatten := by
  intro rs
  induction rs with
  | nil => simp
  | cons r t ih =>
    simp only [List.map_cons, List.flatten_cons]
    exact (hf r).append ih

theorem initHeap_fst_tails_perm :
    ∀ (rs : List (List α)) (idx : Nat),
      ((initHeap idx rs).map Prod.fst ++ (rs.map List.tail).flatten).Perm rs.flatten := by
  intro rs
  induction rs with
  | nil => intro idx; simp [initHeap]
  | cons r t ih =>
    intro idx
    cases r with
    | nil =>
      simp only [initHeap, List.map_cons, List.flatten_cons, List.tail_nil, List.nil_append]
      simpa using ih (idx + 1)
    | cons a t1 =>
      simp only [initHeap, List.map_cons, List.flatten_cons, List.tail_cons, List.cons_append]
      refine List.Perm.cons a ?_
      have hmid : ((initHeap (idx + 1) t).map Prod.fst ++
          (t1 ++ (t.map List.tail).flatten)).Perm
          (t1 ++ ((initHeap (idx + 1) t).map Prod.fst ++ (t.map List.tail).flatten)) := by
        rw [← List.append_assoc, ← List.append_assoc]
        exact List.Perm.append_right _ List.perm_append_comm
      exact hmid.trans (List.Perm.append_left t1 (ih (idx + 1)))

/-- C1: for every finite error free input sequence xs of items and every
total order given by the comparator, the stream produced by consuming
the merger returned by ExternalSorter::sort_by is a permutation of xs
(equal multisets) and is non decreasing under the comparator. -/
theorem c1_sort_by_sorted_permutation (ε δ : Type) (cmp : α → α → Ordering)
    (hc : LawfulCmp cmp) (isFull : List α → Bool) (xs : List α) :
    ∃ (m : BinaryHeapMerger α δ) (ys : List α),
      sortBy δ cmp isFull (xs.map Except.ok : List (Except ε α)) = Except.ok m ∧
      mergerCollect cmp m = ys.map Except.ok ∧
      ys.Perm xs ∧ ys.Pairwise (fun a b => cmpLe cmp a b = true) := by
  obtain ⟨pieces, hruns, hflat⟩ := sortByRuns_ok ε cmp isFull xs []
  simp only [List.nil_append] at hflat
  set rs := pieces.map (parSortBy cmp) with hrs
  have hsorted : ∀ r ∈ rs, r.Pairwise (fun a b => cmpLe cmp a b = true) := by
    intro r hr
    obtain ⟨p, hp, hpr⟩ := List.mem_map.mp hr
    rw [← hpr]
    exact List.sorted_mergeSort (fun a b c => hc.le_trans a b c)
      (cmpLe_total_bool cmp hc) p
  have hInv := initial_inv cmp rs hsorted
  have hmeq := measure_new_okChunks δ rs
  obtain ⟨ys, hrun_eq, hperm, hsort⟩ := merger_sorted_perm δ cmp hc
    (measureM (BinaryHeapMerger.new (okChunks δ rs)))
    (initHeap 0 rs) (rs.map List.tail) hInv (le_of_eq hmeq)
  refine ⟨BinaryHeapMerger.new (okChunks δ rs), ys, ?_, ?_, ?_, hsort⟩
  · unfold sortBy
    rw [hruns]
    rfl
  · unfold mergerCollect
    rw [mergerRun_new_okChunks δ cmp rs]
    exact hrun_eq
  · refine hperm.trans ?_
    refine (initHeap_fst_tails_perm rs 0).trans ?_
    refine (flatten_map_perm (parSortBy cmp) (fun r => List.mergeSort_perm r _) pieces).trans ?_
    exact hflat ▸ List.Perm.refl _

/-! ## Theorems: class filter helpers for stability -/

theorem okValues_nil (ε : Type) : okValues ([] : List (Except ε α)) = [] := rfl

theorem okValues_cons_ok (ε : Type) (a : α) (l : List (Except ε α)) :
    okValues (Except.ok a :: l) = a :: okValues l := rfl

theorem classP_true_iff (cmp : α → α → Ordering) (t x : α) :
    classP cmp t x = true ↔ cmp x t = Ordering.eq := by
  simp [classP]

theorem classP_pair_eq (cmp : α → α → Ordering) (hc : LawfulCmp cmp) (t a x : α)
    (hpa : classP cmp t a = true) (hpx : classP cmp t x = true) :
    cmp a x = Ordering.eq := by
  rw [classP_true_iff] at hpa hpx
  exact cmp_eq_trans cmp hc a t x hpa ((cmp_eq_comm cmp hc x t).mp hpx)

theorem keyLeB_eq_le (cmp : α → α → Ordering) (e f : α × Nat)
    (h : keyLeB cmp e f = true) (heq : cmp e.1 f.1 = Ordering.eq) : e.2 ≤ f.2 := by
  unfold keyLeB at h
  rw [heq] at h
  simpa using h

theorem popMin_rest_sublist (cmp : α → α → Ordering) (h : List (α × Nat)) (a : α) (i : Nat)
    (rest : List (α × Nat)) (hpop : popMin cmp h = some ((a, i), rest)) : rest.Sublist h := by
  obtain ⟨l1, l2, hl, hr⟩ := popMin_split cmp h (a, i) rest hpop
  rw [hl, hr]
  exact List.Sublist.append_left (List.sublist_cons_self (a, i) l2) l1

theorem popMin_rest_nodup (cmp : α → α → Ordering) (h : List (α × Nat)) (a : α) (i : Nat)
    (rest : List (α × Nat)) (hpop : popMin cmp h = some ((a, i), rest))
    (hnd : (h.map Prod.snd).Nodup) : (rest.map Prod.snd).Nodup :=
  hnd.sublist ((popMin_rest_sublist cmp h a i rest hpop).map Prod.snd)

theorem popMin_rest_filter (cmp : α → α → Ordering) (h : List (α × Nat)) (a : α) (i : Nat)
    (rest : List (α × Nat)) (hpop : popMin cmp h = some ((a, i), rest))
    (hnd : (h.map Prod.snd).Nodup) :
    rest.filter (fun e => e.2 == i) = [] := by
  have hmem : (a, i) ∈ h := by
    obtain ⟨l1, l2, hl, _⟩ := popMin_split cmp h (a, i) rest hpop
    rw [hl]
    exact List.mem_append.mpr (Or.inr (List.mem_cons_self _ _))
  have hsingle := filter_snd_eq_singleton h (a, i) hnd hmem
  obtain ⟨l1, l2, hl, hr⟩ := popMin_split cmp h (a, i) rest hpop
  rw [hl, List.filter_append, List.filter_cons] at hsingle
  simp only [beq_self_eq_true, if_true] at hsingle
  have hlen := congrArg List.length hsingle
  simp only [List.length_append, List.length_cons, List.length_singleton, List.length_nil] at hlen
  have hl1 : l1.filter (fun e => e.2 == i) = [] := List.length_eq_zero.mp (by omega)
  have hl2 : l2.filter (fun e => e.2 == i) = [] := List.length_eq_zero.mp (by omega)
  rw [hr, List.filter_append, hl1, hl2]
  rfl

theorem popMin_rest_filter_ne (cmp : α → α → Ordering) (h : List (α × Nat)) (a : α) (i : Nat)
    (rest : List (α × Nat)) (hpop : popMin cmp h = some ((a, i), rest))
    (j : Nat) (hne : j ≠ i) :
    rest.filter (fun e => e.2 == j) = h.filter (fun e => e.2 == j) := by
  obtain ⟨l1, l2, hl, hr⟩ := popMin_split cmp h (a, i) rest hpop
  rw [hl, hr, List.filter_append, List.filter_append, List.filter_cons]
  have : ((a, i).2 == j) = false := by
    simp only [beq_eq_false_iff_ne]
    exact fun hcc => hne hcc.symm
  rw [this]
  simp

theorem range_flatten_congr (k : Nat) (f g : Nat → List α) (hfg : ∀ j < k, f j = g j) :
    ((List.range k).map f).flatten = ((List.range k).map g).flatten := by
  congr 1
  apply List.map_congr_left
  intro j hj
  exact hfg j (List.mem_range.mp hj)

theorem range_flatten_cons (a : α) (f g : Nat → List α) :
    ∀ (k i : Nat), i < k →
      (∀ j < i, f j = []) → f i = a :: g i → (∀ j, j ≠ i → f j = g j) →
      ((List.range k).map f).flatten = a :: ((List.range k).map g).flatten := by
  intro k
  induction k with
  | zero => intro i h; omega
  | succ k ih =>
    intro i hik hzero hstep hother
    simp only [List.range_succ, List.map_append, List.map_cons, List.map_nil,
      List.flatten_append, List.flatten_cons, List.flatten_nil, List.append_nil]
    by_cases hik2 : i < k
    · rw [ih i hik2 hzero hstep hother]
      have hk : f k = g k := hother k (by omega)
      simp [hk]
    · have hik3 : i = k := by omega
      subst hik3
      have hzf : ((List.range i).map f).flatten = [] := by
        rw [List.flatten_eq_nil_iff]
        intro l hl
        obtain ⟨j, hj, hfj⟩ := List.mem_map.mp hl
        rw [← hfj]
        exact hzero j (List.mem_range.mp hj)
      have hzg : ((List.range i).map g).flatten = [] := by
        rw [List.flatten_eq_nil_iff]
        intro l hl
        obtain ⟨j, hj, hgj⟩ := List.mem_map.mp hl
        have hji := List.mem_range.mp hj
        rw [← hgj, ← hother j (by omega)]
        exact hzero j hji
      rw [hzf, hzg]
      simp [hstep]

theorem class_zero_below (cmp : α → α → Ordering) (hc : LawfulCmp cmp) (t : α)
    (h : List (α × Nat)) (rs : List (List α)) (hInv : MergerInv cmp h rs)
    (a : α) (i : Nat) (rest : List (α × Nat))
    (hpop : popMin cmp h = some ((a, i), rest)) (hpa : classP cmp t a = true) :
    ∀ j < i, (remRun h rs j).filter (classP cmp t) = [] := by
  intro j hj
  rw [List.filter_eq_nil_iff]
  intro x hx hpx
  unfold remRun at hx
  rcases List.mem_append.mp hx with hent | hrunm
  · obtain ⟨e, hef, hfst⟩ := List.mem_map.mp hent
    have hememh : e ∈ h := List.mem_of_mem_filter hef
    have hesnd : e.2 = j := by
      have := List.of_mem_filter hef
      simpa using this
    have hk := popMin_min cmp hc h (a, i) rest hpop e hememh
    have heqax : cmp a e.1 = Ordering.eq := by
      rw [hfst]
      exact classP_pair_eq cmp hc t a x hpa hpx
    have := keyLeB_eq_le cmp (a, i) e hk heqax
    omega
  · have hjlen : j < rs.length := by
      by_contra hn
      rw [getD_nil_of_ge rs j (Nat.le_of_not_lt hn)] at hrunm
      simp at hrunm
    have hne : rs.getD j [] ≠ [] := by
      intro hcc
      rw [hcc] at hrunm
      simp at hrunm
    obtain ⟨c, hcmem⟩ := hInv.2.2 j hjlen hne
    have hk := popMin_min cmp hc h (a, i) rest hpop (c, j) hcmem
    have hcx : cmpLe cmp c x = true := (hInv.2.1 (c, j) hcmem).2 x hrunm
    cases hac : cmp a c with
    | lt =>
      have hax : cmp a x = Ordering.lt := cmp_lt_of_lt_le cmp hc a c x hac hcx
      have : cmp a x = Ordering.eq := classP_pair_eq cmp hc t a x hpa hpx
      rw [this] at hax
      exact absurd hax (by decide)
    | eq =>
      have := keyLeB_eq_le cmp (a, i) (c, j) hk hac
      omega
    | gt =>
      have := keyLeB_le cmp (a, i) (c, j) hk
      rw [cmpLe_true_iff] at this
      exact this hac

theorem inv_step_nil (cmp : α → α → Ordering) (h : List (α × Nat)) (rs : List (List α))
    (hInv : MergerInv cmp h rs) (a : α) (i : Nat) (rest : List (α × Nat))
    (hpop : popMin cmp h = some ((a, i), rest)) (hrun : rs.getD i [] = []) :
    MergerInv cmp rest rs := by
  refine ⟨hInv.1, ?_, ?_⟩
  · intro e he
    exact hInv.2.1 e (popMin_rest_subset cmp h a i rest hpop e he)
  · intro j hj hne
    obtain ⟨c, hcmem⟩ := hInv.2.2 j hj hne
    refine ⟨c, popMin_mem_rest_of_ne cmp h a i rest hpop (c, j) hcmem ?_⟩
    intro hceq
    have hji : j = i := congrArg Prod.snd hceq
    rw [hji, hrun] at hne
    exact hne rfl

theorem inv_step_push (cmp : α → α → Ordering) (h : List (α × Nat)) (rs : List (List α))
    (hInv : MergerInv cmp h rs) (a : α) (i : Nat) (rest : List (α × Nat)) (b : α)
    (r1 : List α) (hpop : popMin cmp h = some ((a, i), rest)) (hi : i < rs.length)
    (hrun : rs.getD i [] = b :: r1) :
    MergerInv cmp (rest ++ [(b, i)]) (rs.set i r1) := by
  have hrun_sorted : (b :: r1).Pairwise (fun x y => cmpLe cmp x y = true) := by
    have := hInv.1 (rs.getD i []) (getD_mem_of_lt rs i hi)
    rwa [hrun] at this
  have hb_le : ∀ x ∈ r1, cmpLe cmp b x = true := (List.pairwise_cons.mp hrun_sorted).1
  have hr1_sorted := (List.pairwise_cons.mp hrun_sorted).2
  refine ⟨?_, ?_, ?_⟩
  · intro r hr2
    rcases List.mem_or_eq_of_mem_set hr2 with hro | hrn
    · exact hInv.1 r hro
    · rw [hrn]; exact hr1_sorted
  · intro e he2
    rcases List.mem_append.mp he2 with hre | hbe
    · obtain ⟨hlt, hval⟩ := hInv.2.1 e (popMin_rest_subset cmp h a i rest hpop e hre)
      refine ⟨by simpa using hlt, ?_⟩
      intro x hx
      by_cases hei : e.2 = i
      · rw [hei, getD_set_self rs i r1 hi] at hx
        exact hval x (by rw [hei, hrun]; exact List.mem_cons_of_mem b hx)
      · rw [getD_set_ne rs i e.2 r1 (fun hcc => hei hcc.symm)] at hx
        exact hval x hx
    · have hbe2 : e = (b, i) := by simpa using hbe
      subst hbe2
      refine ⟨by simpa using hi, ?_⟩
      intro x hx
      rw [getD_set_self rs i r1 hi] at hx
      exact hb_le x hx
  · intro j hj hne
    have hj2 : j < rs.length := by simpa using hj
    by_cases hji : j = i
    · subst hji
      exact ⟨b, List.mem_append.mpr (Or.inr (List.mem_singleton.mpr rfl))⟩
    · rw [getD_set_ne rs i j r1 (fun hcc => hji hcc.symm)] at hne
      obtain ⟨c, hcmem⟩ := hInv.2.2 j hj2 hne
      refine ⟨c, List.mem_append.mpr (Or.inl
        (popMin_mem_rest_of_ne cmp h a i rest hpop (c, j) hcmem ?_))⟩
      intro hceq
      exact hji (congrArg Prod.snd hceq)

/-! ## Theorems: the merge is stable (class filter master lemma) -/

theorem merger_class_filter (ε : Type) (cmp : α → α → Ordering) (hc : LawfulCmp cmp) (t : α) :
    ∀ (fuel : Nat) (h : List (α × Nat)) (rs : List (List α)),
      MergerInv cmp h rs → (h.map Prod.snd).Nodup →
      measureM (BinaryHeapMerger.mk h (okChunks ε rs) true) ≤ fuel →
      (okValues (mergerRun cmp fuel (BinaryHeapMerger.mk h (okChunks ε rs) true))).filter
          (classP cmp t) =
        ((List.range rs.length).map
          (fun j => (remRun h rs j).filter (classP cmp t))).flatten := by
  intro fuel
  induction fuel with
  | zero =>
    intro h rs hInv hnd hm
    have hh : h = [] := by
      simp only [measureM] at hm
      exact List.length_eq_zero.mp (by omega)
    have hrsz : ∀ j, j < rs.length → rs.getD j [] = [] := by
      intro j hj
      simp only [measureM, chunksLen_okChunks] at hm
      have hz : (rs.map List.length).sum = 0 := by omega
      exact List.length_eq_zero.mp (List.sum_eq_zero_iff.mp hz (rs.getD j []).length
        (List.mem_map_of_mem List.length (getD_mem_of_lt rs j hj)))
    rw [show mergerRun cmp 0 (BinaryHeapMerger.mk h (okChunks ε rs) true) =
      ([] : List (Except ε α)) from rfl]
    rw [okValues_nil, List.filter_nil]
    symm
    rw [List.flatten_eq_nil_iff]
    intro l hl
    obtain ⟨j, hj, hfj⟩ := List.mem_map.mp hl
    rw [← hfj]
    unfold remRun
    rw [hh, hrsz j (List.mem_range.mp hj)]
    rfl
  | succ f ih =>
    intro h rs hInv hnd hm
    cases hpop : popMin cmp h with
    | none =>
      have hh : h = [] := by
        cases h with
        | nil => rfl
        | cons e t2 => exact absurd hpop (popMin_ne_none cmp e t2)
      have hstep : mergerNext cmp (BinaryHeapMerger.mk h (okChunks ε rs) true) =
          (none, BinaryHeapMerger.mk h (okChunks ε rs) true) := by
        rw [mergerNext_initiated cmp _ rfl]
        unfold mergerPop
        simp only [hpop]
      have hrsz : ∀ j, j < rs.length → rs.getD j [] = [] := by
        intro j hj
        by_contra hne
        obtain ⟨c, hcmem⟩ := hInv.2.2 j hj hne
        rw [hh] at hcmem
        simp at hcmem
      have hrunz : mergerRun cmp (f + 1) (BinaryHeapMerger.mk h (okChunks ε rs) true) = [] := by
        simp only [mergerRun]
        rw [hstep]
      rw [hrunz, okValues_nil, List.filter_nil]
      symm
      rw [List.flatten_eq_nil_iff]
      intro l hl
      obtain ⟨j, hj, hfj⟩ := List.mem_map.mp hl
      rw [← hfj]
      unfold remRun
      rw [hh, hrsz j (List.mem_range.mp hj)]
      rfl
    | some p =>
      obtain ⟨⟨a, i⟩, rest⟩ := p
      have hmem_ai : (a, i) ∈ h := by
        obtain ⟨l1, l2, hl, _⟩ := popMin_split cmp h (a, i) rest hpop
        rw [hl]
        exact List.mem_append.mpr (Or.inr (List.mem_cons_self _ _))
      have hi : i < rs.length := (hInv.2.1 (a, i) hmem_ai).1
      have hfilter_i : h.filter (fun e => e.2 == i) = [(a, i)] :=
        filter_snd_eq_singleton h (a, i) hnd hmem_ai
      have hrest_i : rest.filter (fun e => e.2 == i) = [] :=
        popMin_rest_filter cmp h a i rest hpop hnd
      have hnd2 : (rest.map Prod.snd).Nodup := popMin_rest_nodup cmp h a i rest hpop hnd
      cases hrun : rs.getD i [] with
      | nil =>
        have hstep : mergerNext cmp (BinaryHeapMerger.mk h (okChunks ε rs) true) =
            (some (Except.ok a), BinaryHeapMerger.mk rest (okChunks ε rs) true) := by
          rw [mergerNext_initiated cmp _ rfl]
          unfold mergerPop
          simp only [hpop, getD_okChunks, hrun, List.map_nil]
        have hInv2 : MergerInv cmp rest rs := inv_step_nil cmp h rs hInv a i rest hpop hrun
        have hmeas : measureM (BinaryHeapMerger.mk rest (okChunks ε rs) true) ≤ f := by
          have := mergerNext_measure cmp (BinaryHeapMerger.mk h (okChunks ε rs) true)
            (BinaryHeapMerger.mk rest (okChunks ε rs) true) (Except.ok a) hstep
          omega
        have hIH := ih rest rs hInv2 hnd2 hmeas
        have hout : mergerRun cmp (f + 1) (BinaryHeapMerger.mk h (okChunks ε rs) true) =
            Except.ok a :: mergerRun cmp f (BinaryHeapMerger.mk rest (okChunks ε rs) true) := by
          simp only [mergerRun]
          rw [hstep]
        rw [hout, okValues_cons_ok]
        by_cases hpa : classP cmp t a = true
        · rw [List.filter_cons_of_pos hpa, hIH]
          symm
          apply range_flatten_cons a
            (fun j => (remRun h rs j).filter (classP cmp t))
            (fun j => (remRun rest rs j).filter (classP cmp t)) rs.length i hi
          · exact class_zero_below cmp hc t h rs hInv a i rest hpop hpa
          · unfold remRun
            rw [hfilter_i, hrest_i, hrun]
            simp [List.filter_cons_of_pos hpa]
          · intro j hj
            unfold remRun
            rw [popMin_rest_filter_ne cmp h a i rest hpop j hj]
        · rw [List.filter_cons_of_neg hpa, hIH]
          apply range_flatten_congr
          intro j hj
          by_cases hji : j = i
          · subst hji
            unfold remRun
            rw [hfilter_i, hrest_i, hrun]
            simp [List.filter_cons_of_neg hpa]
          · unfold remRun
            rw [popMin_rest_filter_ne cmp h a i rest hpop j hji]
      | cons b r1 =>
        have hstep : mergerNext cmp (BinaryHeapMerger.mk h (okChunks ε rs) true) =
            (some (Except.ok a),
              BinaryHeapMerger.mk (rest ++ [(b, i)]) (okChunks ε (rs.set i r1)) true) := by
          rw [mergerNext_initiated cmp _ rfl]
          unfold mergerPop
          simp only [hpop, getD_okChunks, hrun, List.map_cons]
          rw [okChunks_set]
        have hInv2 : MergerInv cmp (rest ++ [(b, i)]) (rs.set i r1) :=
          inv_step_push cmp h rs hInv a i rest b r1 hpop hi hrun
        have hnd3 : ((rest ++ [(b, i)]).map Prod.snd).Nodup := by
          rw [List.map_append]
          rw [List.nodup_append]
          refine ⟨hnd2, List.nodup_singleton i, ?_⟩
          intro x hx hxi
          have hxi2 : x = i := by simpa using hxi
          subst hxi2
          obtain ⟨e, hemem, hesnd⟩ := List.mem_map.mp hx
          have : e ∈ rest.filter (fun f2 => f2.2 == x) := by
            rw [List.mem_filter]
            exact ⟨hemem, by simp [hesnd]⟩
          rw [hrest_i] at this
          simp at this
        have hmeas : measureM (BinaryHeapMerger.mk (rest ++ [(b, i)])
            (okChunks ε (rs.set i r1)) true) ≤ f := by
          have := mergerNext_measure cmp (BinaryHeapMerger.mk h (okChunks ε rs) true)
            (BinaryHeapMerger.mk (rest ++ [(b, i)]) (okChunks ε (rs.set i r1)) true)
            (Except.ok a) hstep
          omega
        have hIH := ih (rest ++ [(b, i)]) (rs.set i r1) hInv2 hnd3 hmeas
        rw [List.length_set] at hIH
        have hout : mergerRun cmp (f + 1) (BinaryHeapMerger.mk h (okChunks ε rs) true) =
            Except.ok a :: mergerRun cmp f (BinaryHeapMerger.mk (rest ++ [(b, i)])
              (okChunks ε (rs.set i r1)) true) := by
          simp only [mergerRun]
          rw [hstep]
        have hrem_i_new : remRun (rest ++ [(b, i)]) (rs.set i r1) i = b :: r1 := by
          unfold remRun
          rw [List.filter_append, hrest_i, getD_set_self rs i r1 hi]
          simp
        have hrem_ne_new : ∀ j, j ≠ i →
            remRun (rest ++ [(b, i)]) (rs.set i r1) j = remRun h rs j := by
          intro j hj
          unfold remRun
          rw [List.filter_append, popMin_rest_filter_ne cmp h a i rest hpop j hj,
            getD_set_ne rs i j r1 (fun hcc => hj hcc.symm)]
          have : ([(b, i)].filter (fun e => e.2 == j)) = [] := by
            simp only [List.filter_cons, List.filter_nil]
            have : ((b, i).2 == j) = false := by
              simp only [beq_eq_false_iff_ne]
              exact fun hcc => hj hcc.symm
            rw [this]
            rfl
          rw [this, List.append_nil]
        rw [hout, okValues_cons_ok]
        by_cases hpa : classP cmp t a = true
        · rw [List.filter_cons_of_pos hpa, hIH]
          symm
          apply range_flatten_cons a
            (fun j => (remRun h rs j).filter (classP cmp t))
            (fun j => (remRun (rest ++ [(b, i)]) (rs.set i r1) j).filter (classP cmp t))
            rs.length i hi
          · exact class_zero_below cmp hc t h rs hInv a i rest hpop hpa
          · rw [hrem_i_new]
            unfold remRun
            rw [hfilter_i, hrun]
            simp [List.filter_cons_of_pos hpa]
          · intro j hj
            rw [hrem_ne_new j hj]
        · rw [List.filter_cons_of_neg hpa, hIH]
          apply range_flatten_congr
          intro j hj
          by_cases hji : j = i
          · subst hji
            rw [hrem_i_new]
            unfold remRun
            rw [hfilter_i, hrun]
            simp [List.filter_cons_of_neg hpa]
          · rw [hrem_ne_new j hji]

theorem remRun_initial (rs : List (List α)) (j : Nat) (hj : j < rs.length) :
    remRun (initHeap 0 rs) (rs.map List.tail) j = rs.getD j [] := by
  unfold remRun
  rw [getD_map_tail]
  cases hget : rs.getD j [] with
  | nil =>
    have hno : ∀ a, (a, j) ∉ initHeap 0 rs := by
      intro a hmem
      obtain ⟨h1, h2, h3⟩ := initHeap_mem_spec rs 0 (a, j) hmem
      rw [Nat.sub_zero] at h3
      rw [hget] at h3
      simp at h3
    rw [filter_snd_eq_nil (initHeap 0 rs) j hno]
    simp

  | cons a0 t0 =>
    have hmem := initHeap_covers rs 0 j hj a0 t0 hget
    rw [Nat.zero_add] at hmem
    have hsingle := filter_snd_eq_singleton (initHeap 0 rs) (a0, j)
      (initHeap_snd_nodup rs 0) hmem
    rw [show (fun f => f.2 == (a0, j).2) = (fun f : α × Nat => f.2 == j) from rfl] at hsingle
    rw [hsingle]
    simp

theorem range_getD_filter_flatten (p : α → Bool) :
    ∀ (rs : List (List α)),
      ((List.range rs.length).map (fun j => (rs.getD j []).filter p)).flatten =
        rs.flatten.filter p := by
  intro rs
  induction rs with
  | nil => simp
  | cons r t2 ih =>
    simp only [List.length_cons, List.range_succ_eq_map, List.map_cons, List.map_map,
      List.flatten_cons, List.getD_cons_zero, List.filter_append]
    have hfun : ((fun j => List.filter p ((r :: t2).getD j [])) ∘ Nat.succ) =
        (fun j => List.filter p (t2.getD j [])) := rfl
    rw [hfun, ih]

theorem parSortBy_class_filter (cmp : α → α → Ordering) (hc : LawfulCmp cmp) (t : α)
    (l : List α) :
    (parSortBy cmp l).filter (classP cmp t) = l.filter (classP cmp t) := by
  have hS_pair : (l.filter (classP cmp t)).Pairwise (fun a b => cmpLe cmp a b = true) := by
    apply List.pairwise_of_forall_mem_list
    intro a ha b hb
    exact cmpLe_of_eq cmp a b (classP_pair_eq cmp hc t a b
      (List.of_mem_filter ha) (List.of_mem_filter hb))
  have hsub2 : (l.filter (classP cmp t)).Sublist (parSortBy cmp l) :=
    List.sublist_mergeSort (fun a b c => hc.le_trans a b c) (cmpLe_total_bool cmp hc)
      hS_pair (List.filter_sublist l)
  have hperm : ((parSortBy cmp l).filter (classP cmp t)).Perm (l.filter (classP cmp t)) :=
    (List.mergeSort_perm l _).filter (classP cmp t)
  have hsub3 : (l.filter (classP cmp t)).Sublist ((parSortBy cmp l).filter (classP cmp t)) := by
    have hsf := hsub2.filter (classP cmp t)
    rwa [List.filter_eq_self.mpr (fun a ha => List.of_mem_filter ha)] at hsf
  exact (hsub3.eq_of_length hperm.symm.length_eq).symm

/-- C2: the external sort is stable.  For every error free input xs and
every element t, the elements of the output that compare Equal to t
appear in exactly the order they had in the input, including elements
spilled into different runs. -/
theorem c2_sort_by_stable (ε δ : Type) (cmp : α → α → Ordering) (hc : LawfulCmp cmp)
    (isFull : List α → Bool) (xs : List α) (t : α) :
    ∃ m : BinaryHeapMerger α δ,
      sortBy δ cmp isFull (xs.map Except.ok : List (Except ε α)) = Except.ok m ∧
      (okValues (mergerCollect cmp m)).filter (classP cmp t) =
        xs.filter (classP cmp t) := by
  obtain ⟨pieces, hruns, hflat⟩ := sortByRuns_ok ε cmp isFull xs []
  simp only [List.nil_append] at hflat
  set rs := pieces.map (parSortBy cmp) with hrs
  have hsorted : ∀ r ∈ rs, r.Pairwise (fun a b => cmpLe cmp a b = true) := by
    intro r hr
    obtain ⟨p, hp, hpr⟩ := List.mem_map.mp hr
    rw [← hpr]
    exact List.sorted_mergeSort (fun a b c => hc.le_trans a b c)
      (cmpLe_total_bool cmp hc) p
  have hInv := initial_inv cmp rs hsorted
  have hmeq := measure_new_okChunks δ rs
  have hmaster := merger_class_filter δ cmp hc t
    (measureM (BinaryHeapMerger.new (okChunks δ rs)))
    (initHeap 0 rs) (rs.map List.tail) hInv (initHeap_snd_nodup rs 0) (le_of_eq hmeq)
  refine ⟨BinaryHeapMerger.new (okChunks δ rs), ?_, ?_⟩
  · unfold sortBy
    rw [hruns]
    rfl
  · unfold mergerCollect
    rw [mergerRun_new_okChunks δ cmp rs, hmaster, List.length_map]
    have hcong : (List.range rs.length).map
        (fun j => (remRun (initHeap 0 rs) (rs.map List.tail) j).filter (classP cmp t)) =
        (List.range rs.length).map (fun j => (rs.getD j []).filter (classP cmp t)) := by
      apply List.map_congr_left
      intro j hj
      rw [remRun_initial rs j (List.mem_range.mp hj)]
    rw [hcong, range_getD_filter_flatten, hrs, List.filter_flatten, List.map_map]
    have hcong2 : pieces.map (List.filter (classP cmp t) ∘ parSortBy cmp) =
        pieces.map (List.filter (classP cmp t)) := by
      apply List.map_congr_left
      intro q hq
      exact parSortBy_class_filter cmp hc t q
    rw [hcong2, ← List.filter_flatten, hflat]

/-! ## Theorems: claims C3, C4, C5 on the merger -/

/-- C3: when two heap entries hold items that compare Equal under the
comparator, the entry with the smaller chunk index is popped and
returned first: the pop performed by next() never selects the entry
with the larger index while the smaller indexed equal entry is present. -/
theorem c3_equal_items_smaller_index_first (cmp : α → α → Ordering) (hc : LawfulCmp cmp)
    (m : BinaryHeapMerger α ε) (a b : α) (i j : Nat)
    (ha : (a, i) ∈ m.items) (_hb : (b, j) ∈ m.items)
    (heq : cmp a b = Ordering.eq) (hij : i < j) :
    ∃ x rest, popMin cmp m.items = some (x, rest) ∧ x ≠ (b, j) := by
  cases hpop : popMin cmp m.items with
  | none =>
    exfalso
    cases hmm : m.items with
    | nil => rw [hmm] at ha; simp at ha
    | cons y t2 => rw [hmm] at hpop; exact popMin_ne_none cmp y t2 hpop
  | some p =>
    obtain ⟨x, rest⟩ := p
    refine ⟨x, rest, rfl, ?_⟩
    intro hxbj
    subst hxbj
    have hk := popMin_min cmp hc m.items (b, j) rest hpop (a, i) ha
    have hba : cmp b a = Ordering.eq := (cmp_eq_comm cmp hc a b).mp heq
    have := keyLeB_eq_le cmp (b, j) (a, i) hk hba
    omega

theorem c3_witness :
    ∃ x rest,
      popMin cmpF (BinaryHeapMerger.mk [((5 : Fin 16), 0), (5, 1)]
        ([] : List (List (Except Unit (Fin 16)))) true).items = some (x, rest) ∧
      x ≠ ((5 : Fin 16), 1) :=
  c3_equal_items_smaller_index_first cmpF ⟨by decide, by decide⟩
    (BinaryHeapMerger.mk [((5 : Fin 16), 0), (5, 1)] [] true) 5 5 0 1
    (by decide) (by decide) (by decide) (by decide)

/-- C4 counterexample: with runs [3, error] and [1, 2], the merger pops
the entry 3, pulls the replacement from run 0, hits the error and
returns it, discarding the popped item 3: the output is
[ok 1, ok 2, error] and never contains the popped item 3, although run 0
produced p = 1 values before its error.  This refutes the claim that the
item popped on the erroring call is still returned in the output. -/
theorem c4_counterexample :
    mergerCollect cmpN (BinaryHeapMerger.new
      ([[Except.ok 3, Except.error ()], [Except.ok 1, Except.ok 2]] :
        List (List (Except Unit Nat)))) =
      [Except.ok 1, Except.ok 2, Except.error ()] ∧
    Except.ok 3 ∉ mergerCollect cmpN (BinaryHeapMerger.new
      ([[Except.ok 3, Except.error ()], [Except.ok 1, Except.ok 2]] :
        List (List (Except Unit Nat)))) := by
  decide

/-- C4 amended: when the replacement pull from run i yields an error,
next() surfaces that error without re-enqueueing run i, and the popped
item is discarded: it is neither returned nor back in the heap.  The
error appears in the output in place of the popped item. -/
theorem c4_amended_error_discards_popped (cmp : α → α → Ordering)
    (m : BinaryHeapMerger α ε) (hinit : m.initiated = true)
    (a : α) (i : Nat) (rest : List (α × Nat)) (e : ε) (c : List (Except ε α))
    (hpop : popMin cmp m.items = some ((a, i), rest))
    (hch : m.chunks.getD i [] = Except.error e :: c) :
    mergerNext cmp m =
      (some (Except.error e), BinaryHeapMerger.mk rest (m.chunks.set i c) true) := by
  rw [mergerNext_initiated cmp m hinit]
  unfold mergerPop
  simp only [hpop, hch, hinit]

theorem c4_amended_witness :
    mergerNext cmpN (BinaryHeapMerger.mk [(3, 0)]
        [[Except.error (), Except.ok 5]] true) =
      (some (Except.error ()),
        BinaryHeapMerger.mk [] [[Except.ok 5]] true) :=
  c4_amended_error_discards_popped cmpN
    (BinaryHeapMerger.mk [(3, 0)] [[Except.error (), Except.ok 5]] true)
    rfl 3 0 [] () [Except.ok 5] rfl rfl

/-- C5 counterexample: runs [1, 2, 3, 4] and [error, ok 0].  The first
next() call surfaces the error of run 1 immediately, but the initiated
flag stays false, so the second call re-runs the population loop over
all runs: run 0 is polled again (briefly holding two heap entries) and
the failed run 1 is polled again as well, contributing the item 0 that
follows its error.  The output therefore contains ok 0, refuting the
claim that the failed run is closed and that every still open run keeps
exactly one heap entry. -/
theorem c5_counterexample :
    mergerCollect cmpN (BinaryHeapMerger.new
      ([[Except.ok 1, Except.ok 2, Except.ok 3, Except.ok 4],
        [Except.error (), Except.ok 0]] : List (List (Except Unit Nat)))) =
      [Except.error (), Except.ok 0, Except.ok 1, Except.ok 2,
        Except.ok 3, Except.ok 4] ∧
    Except.ok 0 ∈ mergerCollect cmpN (BinaryHeapMerger.new
      ([[Except.ok 1, Except.ok 2, Except.ok 3, Except.ok 4],
        [Except.error (), Except.ok 0]] : List (List (Except Unit Nat)))) := by
  decide

/-- C5 amended: if the deferred initial population hits an error in some
run, that error is surfaced immediately as the result of the call; the
entries pulled from the runs before the failing one are pushed, the runs
after it are left untouched, and the initiated flag remains false, so
the next call runs the population loop again over all runs from their
current positions: an already polled run is polled once more (and may
hold two heap entries), and the failed run is polled again as well, so
elements following its error still enter the merge. -/
theorem c5_amended_init_error_keeps_uninitiated (cmp : α → α → Ordering)
    (m : BinaryHeapMerger α ε) (hinit : m.initiated = false)
    (cs : List (List (Except ε α))) (hs : List (α × Nat)) (e : ε)
    (ht : initChunks 0 m.chunks = (cs, hs, some e)) :
    mergerNext cmp m =
      (some (Except.error e), BinaryHeapMerger.mk (m.items ++ hs) cs false) :=
  mergerNext_uninit_err cmp m hinit cs hs e ht

theorem c5_amended_witness :
    mergerNext cmpN (BinaryHeapMerger.mk []
        [[Except.ok 1, Except.ok 2], [Except.error (), Except.ok 7]] false) =
      (some (Except.error ()),
        BinaryHeapMerger.mk ([] ++ [(1, 0)]) [[Except.ok 2], [Except.ok 7]] false) :=
  c5_amended_init_error_keeps_uninitiated cmpN
    (BinaryHeapMerger.mk [] [[Except.ok 1, Except.ok 2], [Except.error (), Except.ok 7]] false)
    rfl [[Except.ok 2], [Except.ok 7]] [(1, 0)] () rfl

/-! ## Theorems: claims C6 and C7 on the external chunk codec -/

theorem chunkRun_zero_limit (β δ2 : Type) (dec : List β → Except δ2 α × Nat)
    (r : List β) (fuel : Nat) : chunkRun dec fuel (RmpExternalChunk.mk r 0) = [] := by
  cases fuel with
  | zero => rfl
  | succ f => simp [chunkRun, chunkNext]

theorem chunkRun_build (β δ2 : Type) (enc : α → List β) (dec : List β → Except δ2 α × Nat)
    (hdec : ∀ a rest, dec (enc a ++ rest) = (Except.ok a, (enc a).length))
    (hne : ∀ a, enc a ≠ []) :
    ∀ (xs : List α) (fuel : Nat), xs.length ≤ fuel →
      chunkRun dec fuel
        (RmpExternalChunk.mk ((xs.map enc).flatten) ((xs.map enc).flatten.length)) =
        xs.map Except.ok := by
  intro xs
  induction xs with
  | nil =>
    intro fuel hf
    simp only [List.map_nil, List.flatten_nil, List.length_nil]
    exact chunkRun_zero_limit β δ2 dec [] fuel
  | cons x xs2 ih =>
    intro fuel hf
    cases fuel with
    | zero => simp at hf
    | succ f =>
      have hxle : xs2.length ≤ f := by simpa using hf
      simp only [List.map_cons, List.flatten_cons]
      have hlen : (enc x ++ (xs2.map enc).flatten).length =
          (enc x).length + (xs2.map enc).flatten.length := List.length_append _ _
      have hpos : 0 < (enc x).length := List.length_pos.mpr (hne x)
      simp only [chunkRun]
      have hnext : chunkNext dec (RmpExternalChunk.mk (enc x ++ (xs2.map enc).flatten)
          ((enc x ++ (xs2.map enc).flatten).length)) =
          some (Except.ok x, RmpExternalChunk.mk ((xs2.map enc).flatten)
            ((xs2.map enc).flatten.length)) := by
        unfold chunkNext
        rw [if_neg (by simp only [hlen]; omega)]
        simp only [List.take_length]
        rw [hdec x ((xs2.map enc).flatten)]
        simp only
        have hmin : min (enc x).length (enc x ++ (xs2.map enc).flatten).length =
            (enc x).length := by
          rw [hlen]
          omega
        rw [hmin, List.drop_left]
        have hsub : (enc x ++ (xs2.map enc).flatten).length - (enc x).length =
            (xs2.map enc).flatten.length := by
          rw [hlen]
          omega
        rw [hsub]
      rw [hnext]
      simp only
      rw [ih f hxle]

/-- C6: codec round trip.  For every finite sequence xs of items,
building an external chunk from xs (ExternalChunk::build, which encodes
every item in order, records the file length and limits the reader to
it) and then reading the chunk to exhaustion yields exactly xs, element
for element, in order and without error.  The encoder and decoder stand
for the rmp_serde self delimiting MessagePack codec and are constrained
by its framing laws: decoding an encoded item followed by anything
returns that item consuming exactly its encoding, and encodings are
never empty. -/
theorem c6_codec_round_trip (β δ2 : Type) (enc : α → List β)
    (dec : List β → Except δ2 α × Nat)
    (hdec : ∀ a rest, dec (enc a ++ rest) = (Except.ok a, (enc a).length))
    (hne : ∀ a, enc a ≠ []) (xs : List α) :
    chunkCollect dec (ExternalChunk.build enc xs) = xs.map Except.ok := by
  have hlen : xs.length ≤ (xs.map enc).flatten.length := by
    induction xs with
    | nil => simp
    | cons x xs2 ih =>
      simp only [List.map_cons, List.flatten_cons, List.length_cons, List.length_append]
      have := List.length_pos.mpr (hne x)
      omega
  exact chunkRun_build β δ2 enc dec hdec hne xs ((xs.map enc).flatten.length) hlen

theorem c6_witness :
    chunkCollect dec1 (ExternalChunk.build enc1 [3, 1, 2]) =
      ([3, 1, 2].map Except.ok : List (Except Unit Nat)) :=
  c6_codec_round_trip Nat Unit enc1 dec1 (fun a rest => rfl) (fun a => by simp [enc1])
    [3, 1, 2]

/-- C7: every call of the chunk next() returns a decoded item, an error,
or end of sequence; end of sequence is returned exactly when the Take
limit of L recorded bytes is exhausted; and iteration only ever reads
through the Take, so bytes past the first L bytes of the file can never
influence the output: reading a file with trailing junk past L behaves
identically to reading the first L bytes alone. -/
theorem c7_chunk_next_take_bounded (β δ2 : Type) (dec : List β → Except δ2 α × Nat) :
    (∀ c : RmpExternalChunk α β, chunkNext dec c = none ↔ c.limit = 0) ∧
    (∀ (fuel : Nat) (bs junk : List β) (L : Nat), L ≤ bs.length →
      chunkRun dec fuel (RmpExternalChunk.mk (bs ++ junk) L) =
        chunkRun dec fuel (RmpExternalChunk.mk bs L)) := by
  constructor
  · intro c
    unfold chunkNext
    by_cases hl : c.limit = 0
    · simp [hl]
    · simp [hl]
  · intro fuel
    induction fuel with
    | zero => intro bs junk L h; rfl
    | succ f ih =>
      intro bs junk L h
      simp only [chunkRun]
      by_cases hl : L = 0
      · subst hl
        simp [chunkNext]
      · have hnext1 : chunkNext dec (RmpExternalChunk.mk (bs ++ junk) L) =
            some ((dec (bs.take L)).1,
              RmpExternalChunk.mk (bs.drop (min (dec (bs.take L)).2 L) ++ junk)
                (L - min (dec (bs.take L)).2 L)) := by
          unfold chunkNext
          rw [if_neg (by simpa using hl)]
          rw [show (RmpExternalChunk.mk (bs ++ junk) L).reader.take
              (RmpExternalChunk.mk (bs ++ junk) L).limit = bs.take L from
            List.take_append_of_le_length h]
          simp only
          rw [List.drop_append_of_le_length (by omega : min (dec (bs.take L)).2 L ≤ bs.length)]
        have hnext2 : chunkNext dec (RmpExternalChunk.mk bs L) =
            some ((dec (bs.take L)).1,
              RmpExternalChunk.mk (bs.drop (min (dec (bs.take L)).2 L))
                (L - min (dec (bs.take L)).2 L)) := by
          unfold chunkNext
          rw [if_neg (by simpa using hl)]
        rw [hnext1, hnext2]
        simp only
        rw [ih (bs.drop (min (dec (bs.take L)).2 L)) junk (L - min (dec (bs.take L)).2 L)
          (by simp only [List.length_drop]; omega)]

theorem c7_witness :
    (chunkNext dec1 (RmpExternalChunk.mk [7, 8] 0) = none ↔ (0 : Nat) = 0) ∧
    chunkRun dec1 5 (RmpExternalChunk.mk ([7, 8] ++ [9]) 2) =
      chunkRun dec1 5 (RmpExternalChunk.mk [7, 8] 2) :=
  ⟨(c7_chunk_next_take_bounded Nat Unit dec1).1 (RmpExternalChunk.mk [7, 8] 0),
    (c7_chunk_next_take_bounded Nat Unit dec1).2 5 [7, 8] [9] 2 (by decide)⟩

/-! ## Theorems: claims C8 and C10 on the sorter -/

theorem sortByRuns_input_error (ε : Type) (cmp : α → α → Ordering) (isFull : List α → Bool)
    (e : ε) (post : List (Except ε α)) :
    ∀ (pre : List α) (buf : List α),
      sortByRuns cmp isFull (pre.map Except.ok ++ Except.error e :: post) buf =
        Except.error (SortError.inputError e) := by
  intro pre
  induction pre with
  | nil => intro buf; simp [sortByRuns]
  | cons x pre2 ih =>
    intro buf
    simp only [List.map_cons, List.cons_append, sortByRuns]
    by_cases hf : isFull (buf ++ [x]) = true
    · rw [if_pos hf]
      simp only [List.append_eq]
      rw [ih []]
      rfl
    · rw [if_neg hf]
      simp only [List.append_eq]
      exact ih (buf ++ [x])

/-- C8: if the input sequence yields an error at any position, sort_by
aborts at once and returns the Input error variant synchronously: no
merger is returned, and the result does not depend on the outcomes after
the error (they are never consumed).  The partially built runs do not
escape the call; their disk blocks are reclaimed with the temp
directory, a resource effect outside this embedding. -/
theorem c8_input_error_aborts (ε δ : Type) (cmp : α → α → Ordering)
    (isFull : List α → Bool) (pre : List α) (e : ε) (post : List (Except ε α)) :
    sortBy δ cmp isFull (pre.map Except.ok ++ Except.error e :: post) =
      Except.error (SortError.inputError e) := by
  unfold sortBy
  rw [sortByRuns_input_error ε cmp isFull e post pre []]
  rfl

/-- C10 counterexample: the empty input is error free and has fewer than
usize::MAX items, yet the default configured sorter produces zero runs,
not a single run, because the final buffer is spilled only when it is
non-empty. -/
theorem c10_counterexample :
    (0 : Nat) < USIZE_MAX ∧
    sortByRuns cmpN (limitedIsFull LimitedBufferBuilder.default)
      (([] : List Nat).map Except.ok : List (Except Unit Nat)) [] = Except.ok [] ∧
    ([] : List (List Nat)).length ≠ 1 := by
  refine ⟨by decide, rfl, by decide⟩

theorem sortByRuns_never_full (ε : Type) (cmp : α → α → Ordering) :
    ∀ (xs buf : List α), (buf ++ xs).length < USIZE_MAX →
      sortByRuns cmp (limitedIsFull LimitedBufferBuilder.default)
          (xs.map Except.ok : List (Except ε α)) buf =
        Except.ok (if (buf ++ xs).length > 0 then [parSortBy cmp (buf ++ xs)] else []) := by
  intro xs
  induction xs with
  | nil =>
    intro buf hb
    simp [sortByRuns]
  | cons x xs2 ih =>
    intro buf hb
    simp only [List.map_cons, sortByRuns]
    have hlen : (buf ++ [x]).length < USIZE_MAX := by
      simp only [List.length_append, List.length_cons, List.length_nil] at hb ⊢
      omega
    have hnf : limitedIsFull LimitedBufferBuilder.default (buf ++ [x]) = false := by
      unfold limitedIsFull LimitedBuffer.is_full LimitedBufferBuilder.default
      simp only [decide_eq_false_iff_not]
      simp only [List.length_append, List.length_cons, List.length_nil] at hlen ⊢
      omega
    rw [if_neg (by simp [hnf])]
    have harr : (buf ++ [x]) ++ xs2 = buf ++ x :: xs2 := by simp
    have := ih (buf ++ [x]) (by rw [harr]; exact hb)
    rw [harr] at this
    exact this

/-- C10 amended: the default LimitedBufferBuilder has limit usize::MAX
and no preallocation, the buffer it builds never reports full for fewer
than usize::MAX pushed items, and consequently the sorter accumulates
every non-empty error free input with fewer than usize::MAX items in
memory and spills it as one single sorted run.  (The empty input
produces no run at all.) -/
theorem c10_amended_default_single_run (ε : Type) (cmp : α → α → Ordering)
    (xs : List α) (hne : xs ≠ []) (hlen : xs.length < USIZE_MAX) :
    LimitedBufferBuilder.default.buffer_limit = USIZE_MAX ∧
    LimitedBufferBuilder.default.preallocate = false ∧
    limitedIsFull LimitedBufferBuilder.default xs = false ∧
    sortByRuns cmp (limitedIsFull LimitedBufferBuilder.default)
        (xs.map Except.ok : List (Except ε α)) [] =
      Except.ok [parSortBy cmp xs] := by
  refine ⟨rfl, rfl, ?_, ?_⟩
  · unfold limitedIsFull LimitedBuffer.is_full LimitedBufferBuilder.default
    simp only [decide_eq_false_iff_not]
    omega
  · have := sortByRuns_never_full ε cmp xs [] (by simpa using hlen)
    rw [List.nil_append] at this
    rw [this, if_pos (by cases xs with | nil => exact absurd rfl hne | cons y t => simp)]

theorem c10_amended_witness :
    LimitedBufferBuilder.default.buffer_limit = USIZE_MAX ∧
    LimitedBufferBuilder.default.preallocate = false ∧
    limitedIsFull LimitedBufferBuilder.default [2, 1] = false ∧
    sortByRuns cmpN (limitedIsFull LimitedBufferBuilder.default)
        (([2, 1] : List Nat).map Except.ok : List (Except Unit Nat)) [] =
      Except.ok [parSortBy cmpN [2, 1]] :=
  c10_amended_default_single_run Unit cmpN [2, 1] (by decide) (by decide)

theorem c1_witness :
    ∃ (m : BinaryHeapMerger (Fin 16) Unit) (ys : List (Fin 16)),
      sortBy Unit cmpF (fun l => decide (2 ≤ l.length))
          (([3, 1, 2] : List (Fin 16)).map Except.ok : List (Except Unit (Fin 16))) =
        Except.ok m ∧
      mergerCollect cmpF m = ys.map Except.ok ∧
      ys.Perm [3, 1, 2] ∧ ys.Pairwise (fun a b => cmpLe cmpF a b = true) :=
  c1_sort_by_sorted_permutation Unit Unit cmpF ⟨by decide, by decide⟩
    (fun l => decide (2 ≤ l.length)) [3, 1, 2]

theorem c2_witness :
    ∃ m : BinaryHeapMerger (Fin 16) Unit,
      sortBy Unit cmpF (fun l => decide (2 ≤ l.length))
          (([3, 1, 2] : List (Fin 16)).map Except.ok : List (Except Unit (Fin 16))) =
        Except.ok m ∧
      (okValues (mergerCollect cmpF m)).filter (classP cmpF 1) =
        ([3, 1, 2] : List (Fin 16)).filter (classP cmpF 1) :=
  c2_sort_by_stable Unit Unit cmpF ⟨by decide, by decide⟩
    (fun l => decide (2 ≤ l.length)) [3, 1, 2] 1
